import Mathlib

/-!
# Deterministic lock manager and MVCC storage

A shallow embedding of `src/txn/lock_manager.cc` (`LockManagerA`) and
`src/txn/mvcc_storage.cc` (`MVCCStorage`), followed by theorems about them.

Conventions of the embedding:

* a `std::unordered_map` is an association list read through `tableGet`
  (first match), written through `tablePut` (overwrite in place, else add)
  and cleared of a key through `tableErase`; the maps are never iterated by
  the modelled operations, so the order of entries carries no meaning;
* a `std::deque` is a `List`, front first;
* a `Txn*` is the identity of the transaction it points to (a number);
* `int` counters and timestamps are `Int`: timestamps are only compared, and
  a wait count moves by one per call, so it stays far inside the `int` range
  (signed overflow is undefined in C++ and not modelled).
-/

namespace DbConcurrency

/-! ## Data model -/

/-- Modelled from the spec: the `Key` type of the absent header `utils/common.h`,
a comparable identifier. -/
abbrev Key := Nat

/-- Modelled from the spec: the `Value` type of the absent header
`utils/common.h`, a payload. -/
abbrev Value := Nat

/-- Modelled from the spec: a `Txn*` handle of the absent header `txn/txn.h`;
only the identity of the pointer is used by the lock manager. -/
abbrev Txn := Nat

/-- Modelled from the spec: the `LockMode` enumeration of the absent header
`txn/lock_manager.h`. -/
inductive LockMode where
  | UNLOCKED
  | SHARED
  | EXCLUSIVE
deriving DecidableEq, Repr

/-- Modelled from the spec: the `LockRequest` record of the absent header
`txn/lock_manager.h`, a mode and the requesting transaction. -/
structure LockRequest where
  mode_ : LockMode
  txn_ : Txn
deriving DecidableEq, Repr

/-- Modelled from the spec: the `Version` record of the absent header
`txn/mvcc_storage.h`. -/
structure Version where
  value_ : Value
  max_read_id_ : Int
  version_id_ : Int
deriving DecidableEq, Repr

/-! ## Association lists standing for `unordered_map` -/

/-- Lookup (`find` / `count`): the value of the first entry for `k`. -/
def tableGet {β : Type} (k : Nat) : List (Nat × β) → Option β
  | [] => none
  | e :: m => if e.1 = k then some e.2 else tableGet k m

/-- Assignment through `operator[]`: overwrite the entry of `k`, or add one. -/
def tablePut {β : Type} (k : Nat) (v : β) : List (Nat × β) → List (Nat × β)
  | [] => [(k, v)]
  | e :: m => if e.1 = k then (k, v) :: m else e :: tablePut k v m

/-- The `erase(key)` member: drop every entry of `k`. -/
def tableErase {β : Type} (k : Nat) : List (Nat × β) → List (Nat × β)
  | [] => []
  | e :: m => if e.1 = k then tableErase k m else e :: tableErase k m

/-! ## Lock manager (`src/txn/lock_manager.cc`) -/

/-- State of a `LockManagerA`: the lock table, the wait counts and the ready
queue handed in by the caller. -/
structure LockManagerA where
  lock_table_ : List (Key × List LockRequest)
  txn_waits_ : List (Txn × Int)
  ready_txns_ : List Txn
deriving DecidableEq, Repr

namespace LockManagerA

/-- A freshly constructed manager with an empty ready queue. -/
def empty : LockManagerA := { lock_table_ := [], txn_waits_ := [], ready_txns_ := [] }

/-- The queue of `key`, empty when the table has none. -/
def queueOf (s : LockManagerA) (key : Key) : List LockRequest :=
  (tableGet key s.lock_table_).getD []

/-- The wait count of `txn`, `0` when the table has no entry
(the value `operator[]` would create). -/
def waitOf (s : LockManagerA) (txn : Txn) : Int :=
  (tableGet txn s.txn_waits_).getD 0

/-- `LockManager::_getLockQueue`: the queue of `key`, created empty in the
table when absent. -/
def _getLockQueue (s : LockManagerA) (key : Key) : List LockRequest × LockManagerA :=
  match tableGet key s.lock_table_ with
  | some dq => (dq, s)
  | none => ([], { s with lock_table_ := tablePut key [] s.lock_table_ })

/-- `LockManagerA::WriteLock`. -/
def WriteLock (s : LockManagerA) (txn : Txn) (key : Key) : Bool × LockManagerA :=
  let rq : LockRequest := { mode_ := LockMode.EXCLUSIVE, txn_ := txn }
  let got := _getLockQueue s key
  let empty := got.1.isEmpty
  let s1 : LockManagerA :=
    { got.2 with lock_table_ := tablePut key (got.1 ++ [rq]) got.2.lock_table_ }
  if !empty then
    (empty, { s1 with txn_waits_ := tablePut txn (waitOf s1 txn + 1) s1.txn_waits_ })
  else
    (empty, s1)

/-- `LockManagerA::ReadLock`. -/
def ReadLock (s : LockManagerA) (txn : Txn) (key : Key) : Bool × LockManagerA :=
  WriteLock s txn key

/-- The scan of `Release`: the queue with the first request of `txn` erased,
and the final value of `removedOwner`. -/
def Release.scan (txn : Txn) : List LockRequest → Bool → List LockRequest × Bool
  | [], removedOwner => ([], removedOwner)
  | r :: rest, removedOwner =>
    if r.txn_ = txn then (rest, removedOwner)
    else ((r :: (Release.scan txn rest false).1), (Release.scan txn rest false).2)

/-- `LockManagerA::Release`. -/
def Release (s : LockManagerA) (txn : Txn) (key : Key) : LockManagerA :=
  let got := _getLockQueue s key
  let out := Release.scan txn got.1 true
  let s1 : LockManagerA := { got.2 with lock_table_ := tablePut key out.1 got.2.lock_table_ }
  match out.1 with
  | [] => s1
  | next :: _ =>
    if out.2 then
      if waitOf s1 next.txn_ - 1 = 0 then
        { s1 with
          ready_txns_ := s1.ready_txns_ ++ [next.txn_]
          txn_waits_ := tableErase next.txn_ s1.txn_waits_ }
      else
        { s1 with txn_waits_ := tablePut next.txn_ (waitOf s1 next.txn_ - 1) s1.txn_waits_ }
    else s1

/-- `LockManagerA::Status`: the returned mode, the content of `*owners` after
the call (given its content before) and the new state. -/
def Status (s : LockManagerA) (key : Key) (owners : List Txn) :
    LockMode × List Txn × LockManagerA :=
  let got := _getLockQueue s key
  match got.1 with
  | [] => (LockMode.UNLOCKED, owners, got.2)
  | front :: _ => (LockMode.EXCLUSIVE, [front.txn_], got.2)

/-- The EXCLUSIVE request that `WriteLock` builds for a transaction. -/
def exclusiveRequest (txn : Txn) : LockRequest :=
  { mode_ := LockMode.EXCLUSIVE, txn_ := txn }

/-- One call of the public interface. -/
inductive Call where
  | WriteLock (txn : Txn) (key : Key)
  | ReadLock (txn : Txn) (key : Key)
  | Release (txn : Txn) (key : Key)
deriving DecidableEq, Repr

/-- The state after one call; the returned flag of a lock call is dropped. -/
def step (s : LockManagerA) : Call → LockManagerA
  | Call.WriteLock txn key => (WriteLock s txn key).2
  | Call.ReadLock txn key => (ReadLock s txn key).2
  | Call.Release txn key => Release s txn key

/-- The state after a sequence of calls, first call first. -/
def run (s : LockManagerA) (calls : List Call) : LockManagerA :=
  calls.foldl step s

/-- The flags returned by `WriteLock(txn, key)` for each `txn` of the list in
turn, and the state after the last call. -/
def lockAll (key : Key) : List Txn → LockManagerA → List Bool × LockManagerA
  | [], s => ([], s)
  | txn :: txns, s =>
    ((WriteLock s txn key).1 :: (lockAll key txns (WriteLock s txn key).2).1,
      (lockAll key txns (WriteLock s txn key).2).2)

/-- The state after `Release(txn, key)` for each `txn` of the list in turn. -/
def releaseAll (key : Key) (txns : List Txn) (s : LockManagerA) : LockManagerA :=
  txns.foldl (fun st txn => Release st txn key) s

/-- Number of requests of `txn` at non-front positions of one queue. -/
def pendingIn (txn : Txn) (q : List LockRequest) : Nat :=
  q.tail.countP (fun r => decide (r.txn_ = txn))

/-- Number of requests of `txn` at non-front positions over all queues of
the lock table. -/
def pendingCount (s : LockManagerA) (txn : Txn) : Nat :=
  (s.lock_table_.map (fun e => pendingIn txn e.2)).sum

/-- Whether `txn` has a request at a non-front position of some key's queue. -/
def hasPending (s : LockManagerA) (txn : Txn) : Bool :=
  s.lock_table_.any (fun e => (queueOf s e.1).tail.any (fun r => decide (r.txn_ = txn)))

/-- Whether `txn` has an entry in the wait-count table. -/
def hasWaitEntry (s : LockManagerA) (txn : Txn) : Bool :=
  (tableGet txn s.txn_waits_).isSome

/-- Whether the request at the front of `key`'s queue belongs to `txn`. -/
def ownsFront (s : LockManagerA) (txn : Txn) (key : Key) : Bool :=
  match queueOf s key with
  | r :: _ => decide (r.txn_ = txn)
  | [] => false

/-- Whether every `Release(txn, key)` of the sequence, run from `s`, is made
when the front request of `key`'s queue belongs to `txn`. -/
def ownerOnly (s : LockManagerA) : List Call → Bool
  | [] => true
  | c :: calls =>
    (match c with
      | Call.Release txn key => ownsFront s txn key
      | _ => true) && ownerOnly (step s c) calls

/-- Whether a queue went from `before` to `after` by losing its front request
and thereby bringing a request of `txn` to the front. -/
def becomesFront (before after : List LockRequest) (txn : Txn) : Bool :=
  match before, after with
  | _ :: rest, r :: _ => decide (after = rest) && decide (r.txn_ = txn)
  | _, _ => false

/-- No key is listed twice in the lock table. -/
def KeysNodup (s : LockManagerA) : Prop :=
  (s.lock_table_.map Prod.fst).Nodup

/-- Every wait count is at least the number of requests the transaction has
at non-front positions. -/
def WaitsCover (s : LockManagerA) : Prop :=
  ∀ txn, (pendingCount s txn : Int) ≤ waitOf s txn

/-- Every wait count equals the number of requests the transaction has at
non-front positions. -/
def WaitsExact (s : LockManagerA) : Prop :=
  ∀ txn, waitOf s txn = (pendingCount s txn : Int)

/-- Every entry of the wait-count table is at least one. -/
def WaitsPositive (s : LockManagerA) : Prop :=
  ∀ txn c, tableGet txn s.txn_waits_ = some c → 1 ≤ c

end LockManagerA

/-! ## MVCC storage (`src/txn/mvcc_storage.cc`) -/

/-- State of an `MVCCStorage`: the version chains, newest first. The per-key
mutexes guard concurrent callers and hold no data. -/
structure MVCCStorage where
  mvcc_data_ : List (Key × List Version)
deriving DecidableEq, Repr

namespace MVCCStorage

/-- A storage with no chain. -/
def empty : MVCCStorage := { mvcc_data_ := [] }

/-- The chain of `key`, empty when the storage has none. -/
def chainOf (s : MVCCStorage) (key : Key) : List Version :=
  (tableGet key s.mvcc_data_).getD []

/-- The loop of `Read` over a chain, carrying `largest_version_id_`, `*result`
and `valid`; returns the chain with the updated read marks and the final
`*result` and `valid`. -/
def Read.scan (txn_unique_id : Int) :
    List Version → Int → Value → Bool → List Version × Value × Bool
  | [], _, result, valid => ([], result, valid)
  | v :: rest, largest_version_id_, result, valid =>
    if v.version_id_ ≤ txn_unique_id ∧ v.version_id_ > largest_version_id_ then
      ((if txn_unique_id > v.max_read_id_ then { v with max_read_id_ := txn_unique_id } else v)
          :: (Read.scan txn_unique_id rest v.version_id_ v.value_ true).1,
        (Read.scan txn_unique_id rest v.version_id_ v.value_ true).2)
    else
      (v :: (Read.scan txn_unique_id rest largest_version_id_ result valid).1,
        (Read.scan txn_unique_id rest largest_version_id_ result valid).2)

/-- `MVCCStorage::Read`: the returned flag, the content of `*result` after the
call (given its content before) and the new state. -/
def Read (s : MVCCStorage) (key : Key) (result : Value) (txn_unique_id : Int) :
    Bool × Value × MVCCStorage :=
  match tableGet key s.mvcc_data_ with
  | some chain =>
    ((Read.scan txn_unique_id chain 0 result false).2.2,
      (Read.scan txn_unique_id chain 0 result false).2.1,
      { s with mvcc_data_ :=
          tablePut key (Read.scan txn_unique_id chain 0 result false).1 s.mvcc_data_ })
  | none => (false, result, s)

/-- The loop of `CheckWrite` over a chain. -/
def CheckWrite.scan (txn_unique_id : Int) : List Version → Bool
  | [] => true
  | v :: rest =>
    if v.version_id_ > txn_unique_id ∨ v.max_read_id_ > txn_unique_id then false
    else CheckWrite.scan txn_unique_id rest

/-- `MVCCStorage::CheckWrite`. -/
def CheckWrite (s : MVCCStorage) (key : Key) (txn_unique_id : Int) : Bool :=
  match tableGet key s.mvcc_data_ with
  | some chain => CheckWrite.scan txn_unique_id chain
  | none => true

/-- `MVCCStorage::Write`. -/
def Write (s : MVCCStorage) (key : Key) (value : Value) (txn_unique_id : Int) : MVCCStorage :=
  let new_version : Version :=
    { value_ := value, version_id_ := txn_unique_id, max_read_id_ := txn_unique_id }
  match tableGet key s.mvcc_data_ with
  | some version_lists =>
    { s with mvcc_data_ := tablePut key (new_version :: version_lists) s.mvcc_data_ }
  | none => { s with mvcc_data_ := tablePut key [new_version] s.mvcc_data_ }

/-- The version `InitStorage` writes for every key, by `Write(i, 0, 0)`. -/
def initialVersion : Version := { value_ := 0, version_id_ := 0, max_read_id_ := 0 }

/-- The loop of `InitStorage` over the keys `0 .. n - 1`. -/
def InitStorage.loop (n : Nat) (s : MVCCStorage) : MVCCStorage :=
  (List.range n).foldl (fun st i => Write st i 0 0) s

/-- `MVCCStorage::InitStorage` (the mutexes it allocates hold no data). -/
def InitStorage (s : MVCCStorage) : MVCCStorage :=
  InitStorage.loop 1000000 s

/-- One call of the storage interface that can change the state. -/
inductive Op where
  | Read (key : Key) (txn_unique_id : Int)
  | Write (key : Key) (value : Value) (txn_unique_id : Int)
deriving DecidableEq, Repr

/-- The state after one call, or `none` when the call is a `Write` that
`CheckWrite` rejects in the state just before it. `Read` changes the state
the same way whatever `*result` holds, so it is run with `0` there. -/
def guardedStep (s : MVCCStorage) : Op → Option MVCCStorage
  | Op.Read key txn_unique_id => some (Read s key 0 txn_unique_id).2.2
  | Op.Write key value txn_unique_id =>
    if CheckWrite s key txn_unique_id then some (Write s key value txn_unique_id) else none

/-- The state after a sequence of calls in which every `Write` passes
`CheckWrite` just before it is made; `none` when some `Write` does not. -/
def guardedRun (s : MVCCStorage) : List Op → Option MVCCStorage
  | [] => some s
  | op :: ops =>
    match guardedStep s op with
    | some s1 => guardedRun s1 ops
    | none => none

/-- The version that `Read` at `txn_unique_id` leaves in place of `v` when it
selects `v`: the read mark raised to `max(max_read_id_, txn_unique_id)`. -/
def markRead (txn_unique_id : Int) (v : Version) : Version :=
  { v with max_read_id_ := max v.max_read_id_ txn_unique_id }

/-- Every chain lists its versions with `version_id_` non-increasing from
front to back. -/
def ChainsDescending (s : MVCCStorage) : Prop :=
  ∀ key, ((chainOf s key).map Version.version_id_).Pairwise (fun a b => b ≤ a)

/-- The state after `Write(key, w.1, w.2)` for each pair `w` of the list in
turn: values and timestamps written to one key, first call first. -/
def writeAll (key : Key) (writes : List (Value × Int)) (s : MVCCStorage) : MVCCStorage :=
  writes.foldl (fun st w => Write st key w.1 w.2) s

/-- The state after `Read(rd.1, rd.2)` for each pair `rd` of the list in turn.
`Read` changes the state the same way whatever `*result` holds, so it is run
with `0` there. -/
def readAll (reads : List (Key × Int)) (s : MVCCStorage) : MVCCStorage :=
  reads.foldl (fun st rd => (Read st rd.1 0 rd.2).2.2) s

/-- What `Read` may do to a version: keep `value_` and `version_id_`, and not
lower `max_read_id_`. -/
def readMarkRaised (before after : Version) : Prop :=
  after.value_ = before.value_ ∧ after.version_id_ = before.version_id_ ∧
    before.max_read_id_ ≤ after.max_read_id_

/-- Whether every `Write(key, v, t)` of the sequence, run from `s`, is made
when no version of `key`'s chain has `version_id_ = t` (no two writers of a
key share a timestamp). Calls after a rejected `Write` are not looked at. -/
def freshWrites (s : MVCCStorage) : List Op → Bool
  | [] => true
  | op :: ops =>
    (match op with
      | Op.Write key _ txn_unique_id =>
        decide (txn_unique_id ∉ (chainOf s key).map Version.version_id_)
      | Op.Read _ _ => true) &&
    (match guardedStep s op with
      | some s1 => freshWrites s1 ops
      | none => true)

/-- Every version behind the front of a chain has a read mark no larger than
the `version_id_` of the version just in front of it. -/
def ReadMarksBelow (s : MVCCStorage) : Prop :=
  ∀ key, (chainOf s key).Chain' (fun front behind => behind.max_read_id_ ≤ front.version_id_)

/-- The check of the front (newest) version alone, following the words of
the claim: true for an empty chain, else `front.version_id_ ≤ txn_unique_id`
and `front.max_read_id_ ≤ txn_unique_id`. -/
def CheckWriteFront (s : MVCCStorage) (key : Key) (txn_unique_id : Int) : Bool :=
  match chainOf s key with
  | [] => true
  | front :: _ =>
    decide (front.version_id_ ≤ txn_unique_id) && decide (front.max_read_id_ ≤ txn_unique_id)

end MVCCStorage

/-! # Theorems -/

/-! ## Association-list lemmas -/

theorem tableGet_tablePut_self {β : Type} (k : Nat) (v : β) (m : List (Nat × β)) :
    tableGet k (tablePut k v m) = some v := by
  induction m with
  | nil => simp [tablePut, tableGet]
  | cons e m ih =>
    by_cases h : e.1 = k
    · simp [tablePut, tableGet, h]
    · simp [tablePut, tableGet, h, ih]

theorem tableGet_tablePut_ne {β : Type} {k k' : Nat} (v : β) (m : List (Nat × β))
    (hne : k' ≠ k) : tableGet k' (tablePut k v m) = tableGet k' m := by
  induction m with
  | nil => simp [tablePut, tableGet, Ne.symm hne]
  | cons e m ih =>
    obtain ⟨a, b⟩ := e
    by_cases h : a = k
    · subst h
      simp [tablePut, tableGet, Ne.symm hne]
    · by_cases h2 : a = k'
      · subst h2
        simp [tablePut, tableGet, h]
      · simp [tablePut, tableGet, h, h2, ih]

theorem tablePut_of_tableGet {β : Type} {k : Nat} {v : β} {m : List (Nat × β)}
    (hget : tableGet k m = some v) : tablePut k v m = m := by
  induction m with
  | nil => simp [tableGet] at hget
  | cons e m ih =>
    by_cases h : e.1 = k
    · simp only [tableGet, h, if_true, Option.some.injEq] at hget
      simp only [tablePut, h, if_true]
      rw [← h, ← hget]
    · simp only [tableGet, h, if_false] at hget
      simp [tablePut, h, ih hget]

theorem tablePut_tablePut {β : Type} (k : Nat) (v w : β) (m : List (Nat × β)) :
    tablePut k v (tablePut k w m) = tablePut k v m := by
  induction m with
  | nil => simp [tablePut]
  | cons e m ih =>
    by_cases h : e.1 = k
    · simp [tablePut, h]
    · simp [tablePut, h, ih]

theorem tableGet_tableErase_self {β : Type} (k : Nat) (m : List (Nat × β)) :
    tableGet k (tableErase k m) = none := by
  induction m with
  | nil => simp [tableErase, tableGet]
  | cons e m ih =>
    by_cases h : e.1 = k
    · simp [tableErase, h, ih]
    · simp [tableErase, tableGet, h, ih]

theorem tableGet_tableErase_ne {β : Type} {k k' : Nat} (m : List (Nat × β))
    (hne : k' ≠ k) : tableGet k' (tableErase k m) = tableGet k' m := by
  induction m with
  | nil => simp [tableErase, tableGet]
  | cons e m ih =>
    obtain ⟨a, b⟩ := e
    by_cases h : a = k
    · subst h
      simp [tableErase, tableGet, Ne.symm hne, ih]
    · by_cases h2 : a = k'
      · subst h2
        simp [tableErase, tableGet, h]
      · simp [tableErase, tableGet, h, h2, ih]

theorem tablePut_of_absent {β : Type} {k : Nat} (v : β) {m : List (Nat × β)}
    (h : tableGet k m = none) : tablePut k v m = m ++ [(k, v)] := by
  induction m with
  | nil => rfl
  | cons e m ih =>
    by_cases he : e.1 = k
    · simp [tableGet, he] at h
    · simp only [tableGet, he, if_false] at h
      simp [tablePut, he, ih h]

theorem tableGet_append {β : Type} (k : Nat) (m m2 : List (Nat × β)) :
    tableGet k (m ++ m2) = (tableGet k m).orElse (fun _ => tableGet k m2) := by
  induction m with
  | nil => simp [tableGet]
  | cons e m ih =>
    by_cases he : e.1 = k
    · simp [tableGet, he]
    · simp [tableGet, he, ih]

theorem sum_tablePut {β : Type} (f : β → Nat) (k : Nat) (v d : β) (hd : f d = 0)
    (m : List (Nat × β)) :
    ((tablePut k v m).map (fun e => f e.2)).sum + f ((tableGet k m).getD d) =
      (m.map (fun e => f e.2)).sum + f v := by
  induction m with
  | nil => simp [tablePut, tableGet, hd]
  | cons e m ih =>
    by_cases h : e.1 = k
    · simp only [tablePut, tableGet, h, if_true, List.map_cons, List.sum_cons,
        Option.getD_some]
      omega
    · simp only [tablePut, tableGet, h, if_false, List.map_cons, List.sum_cons]
      omega

theorem keys_tablePut {β : Type} (k : Nat) (v : β) (m : List (Nat × β))
    (h : (m.map Prod.fst).Nodup) : ((tablePut k v m).map Prod.fst).Nodup := by
  induction m with
  | nil => simp [tablePut]
  | cons e m ih =>
    simp only [List.map_cons, List.nodup_cons] at h
    by_cases he : e.1 = k
    · simp only [tablePut, he, if_true, List.map_cons, List.nodup_cons]
      exact ⟨he ▸ h.1, h.2⟩
    · simp only [tablePut, he, if_false, List.map_cons, List.nodup_cons]
      refine ⟨?_, ih h.2⟩
      intro hin
      apply h.1
      clear ih h
      induction m with
      | nil => simp [tablePut] at hin; exact absurd hin he
      | cons e2 m ih2 =>
        by_cases he2 : e2.1 = k
        · simp only [tablePut, he2, if_true, List.map_cons, List.mem_cons] at hin
          rcases hin with h1 | h1
          · exact absurd h1 he
          · exact List.mem_cons_of_mem _ h1
        · simp only [tablePut, he2, if_false, List.map_cons, List.mem_cons] at hin
          rcases hin with h1 | h1
          · simp [h1]
          · exact List.mem_cons_of_mem _ (ih2 h1)

theorem tableGet_mem {β : Type} {k : Nat} {v : β} {m : List (Nat × β)}
    (h : tableGet k m = some v) : (k, v) ∈ m := by
  induction m with
  | nil => simp [tableGet] at h
  | cons e m ih =>
    by_cases he : e.1 = k
    · simp only [tableGet, he, if_true, Option.some.injEq] at h
      have : e = (k, v) := by rw [← he, ← h]
      simp [this]
    · simp only [tableGet, he, if_false] at h
      exact List.mem_cons_of_mem _ (ih h)

theorem tableGet_of_mem {β : Type} {k : Nat} {v : β} {m : List (Nat × β)}
    (hnd : (m.map Prod.fst).Nodup) (h : (k, v) ∈ m) : tableGet k m = some v := by
  induction m with
  | nil => simp at h
  | cons e m ih =>
    simp only [List.map_cons, List.nodup_cons] at hnd
    rcases List.mem_cons.mp h with h1 | h1
    · subst h1; simp [tableGet]
    · have hne : e.1 ≠ k := by
        intro he
        apply hnd.1
        rw [he]
        exact List.mem_map.mpr ⟨(k, v), h1, rfl⟩
      simp only [tableGet, hne, if_false]
      exact ih hnd.2 h1

namespace LockManagerA

/-! ## Single calls of the lock manager -/

theorem getLockQueue_fst (s : LockManagerA) (key : Key) :
    (_getLockQueue s key).1 = queueOf s key := by
  unfold _getLockQueue queueOf
  cases tableGet key s.lock_table_ <;> rfl

theorem getLockQueue_snd_waits (s : LockManagerA) (key : Key) :
    (_getLockQueue s key).2.txn_waits_ = s.txn_waits_ := by
  unfold _getLockQueue
  cases tableGet key s.lock_table_ <;> rfl

theorem getLockQueue_snd_ready (s : LockManagerA) (key : Key) :
    (_getLockQueue s key).2.ready_txns_ = s.ready_txns_ := by
  unfold _getLockQueue
  cases tableGet key s.lock_table_ <;> rfl

theorem getLockQueue_snd_put (s : LockManagerA) (key : Key) (q : List LockRequest) :
    tablePut key q (_getLockQueue s key).2.lock_table_ = tablePut key q s.lock_table_ := by
  unfold _getLockQueue
  cases tableGet key s.lock_table_ with
  | none => exact tablePut_tablePut key q [] s.lock_table_
  | some dq => rfl

/-- `WriteLock` in closed form. -/
theorem WriteLock_eq (s : LockManagerA) (txn : Txn) (key : Key) :
    WriteLock s txn key =
      ((queueOf s key).isEmpty,
        { lock_table_ :=
            tablePut key (queueOf s key ++ [{ mode_ := LockMode.EXCLUSIVE, txn_ := txn }])
              s.lock_table_
          txn_waits_ :=
            if (queueOf s key).isEmpty then s.txn_waits_
            else tablePut txn (waitOf s txn + 1) s.txn_waits_
          ready_txns_ := s.ready_txns_ }) := by
  unfold WriteLock
  simp only [getLockQueue_fst, getLockQueue_snd_put, getLockQueue_snd_waits,
    getLockQueue_snd_ready, waitOf]
  cases h : (queueOf s key).isEmpty <;> simp

theorem Release_scan_fst (txn : Txn) (q : List LockRequest) (b : Bool) :
    (Release.scan txn q b).1 = q.eraseP (fun r => decide (r.txn_ = txn)) := by
  induction q generalizing b with
  | nil => rfl
  | cons r rest ih =>
    by_cases h : r.txn_ = txn
    · simp [Release.scan, h]
    · simp [Release.scan, h, ih]

theorem Release_scan_snd_cons (txn : Txn) (r : LockRequest) (rest : List LockRequest)
    (b : Bool) :
    (Release.scan txn (r :: rest) b).2 = (decide (r.txn_ = txn) && b) := by
  by_cases h : r.txn_ = txn
  · simp [Release.scan, h]
  · simp only [Release.scan, h, if_false, decide_False, Bool.false_and]
    cases rest with
    | nil => rfl
    | cons r2 rest2 =>
      by_cases h2 : r2.txn_ = txn
      · simp [Release.scan, h2]
      · simp only [Release.scan, h2, if_false]
        clear h h2
        induction rest2 generalizing r2 with
        | nil => rfl
        | cons r3 rest3 ih =>
          by_cases h3 : r3.txn_ = txn
          · simp [Release.scan, h3]
          · simp only [Release.scan, h3, if_false]
            exact ih r3

/-- `Release` of the owner in closed form. -/
theorem Release_owner_eq (s : LockManagerA) (txn : Txn) (key : Key)
    (r : LockRequest) (rest : List LockRequest)
    (hq : queueOf s key = r :: rest) (hr : r.txn_ = txn) :
    Release s txn key =
      match rest with
      | [] => { s with lock_table_ := tablePut key [] s.lock_table_ }
      | next :: _ =>
        if waitOf s next.txn_ - 1 = 0 then
          { lock_table_ := tablePut key rest s.lock_table_
            txn_waits_ := tableErase next.txn_ s.txn_waits_
            ready_txns_ := s.ready_txns_ ++ [next.txn_] }
        else
          { lock_table_ := tablePut key rest s.lock_table_
            txn_waits_ := tablePut next.txn_ (waitOf s next.txn_ - 1) s.txn_waits_
            ready_txns_ := s.ready_txns_ } := by
  have h1 : (Release.scan txn (r :: rest) true).1 = rest := by simp [Release.scan, hr]
  have h2 : (Release.scan txn (r :: rest) true).2 = true := by simp [Release.scan, hr]
  unfold Release
  simp only [getLockQueue_fst, getLockQueue_snd_put, getLockQueue_snd_waits,
    getLockQueue_snd_ready, waitOf, hq, h1, h2]
  cases rest with
  | nil => simp
  | cons next rest2 => simp

/-- `Release` by a transaction that does not own the front request, in closed form. -/
theorem Release_nonowner_eq (s : LockManagerA) (txn : Txn) (key : Key)
    (hfront : ∀ r, (queueOf s key).head? = some r → r.txn_ ≠ txn) :
    Release s txn key =
      { s with
        lock_table_ :=
          tablePut key ((queueOf s key).eraseP (fun r => decide (r.txn_ = txn)))
            s.lock_table_ } := by
  unfold Release
  simp only [getLockQueue_fst, getLockQueue_snd_put, getLockQueue_snd_waits,
    getLockQueue_snd_ready, Release_scan_fst]
  cases hq : queueOf s key with
  | nil => simp [Release.scan]
  | cons r rest =>
    have hne : r.txn_ ≠ txn := hfront r (by simp [hq])
    have h2 : (Release.scan txn (r :: rest) true).2 = false := by
      rw [Release_scan_snd_cons]; simp [hne]
    simp only [h2]
    split <;> simp

theorem queueOf_put_self (s : LockManagerA) (key : Key) (q : List LockRequest)
    (w : List (Txn × Int)) (rd : List Txn) :
    queueOf { lock_table_ := tablePut key q s.lock_table_, txn_waits_ := w, ready_txns_ := rd }
      key = q := by
  simp [queueOf, tableGet_tablePut_self]

/-- Claim C2. `WriteLock(txn, key)` returns true exactly when the queue of
`key` was empty before the call; afterwards the queue of `key` is the old
queue with one EXCLUSIVE request of `txn` added at the back, whatever the old
queue held; when the call returns false the wait count of `txn` (0 without an
entry) has grown by exactly one, and when it returns true the wait-count
table is unchanged. -/
theorem WriteLock_spec (s : LockManagerA) (txn : Txn) (key : Key) :
    ((WriteLock s txn key).1 = true ↔ queueOf s key = []) ∧
    queueOf (WriteLock s txn key).2 key =
      queueOf s key ++ [{ mode_ := LockMode.EXCLUSIVE, txn_ := txn }] ∧
    ((WriteLock s txn key).1 = false →
      tableGet txn (WriteLock s txn key).2.txn_waits_ = some (waitOf s txn + 1) ∧
      waitOf (WriteLock s txn key).2 txn = waitOf s txn + 1) ∧
    ((WriteLock s txn key).1 = true →
      (WriteLock s txn key).2.txn_waits_ = s.txn_waits_) := by
  rw [WriteLock_eq]
  refine ⟨by simp [List.isEmpty_iff], queueOf_put_self _ _ _ _ _, ?_, ?_⟩
  · intro h
    simp only at h
    simp [waitOf, h, tableGet_tablePut_self]
  · intro h
    simp only at h
    simp [h]

theorem Release_nonowner_queue (s : LockManagerA) (txn : Txn) (key : Key)
    (hfront : ∀ r, (queueOf s key).head? = some r → r.txn_ ≠ txn) :
    queueOf (Release s txn key) key =
      (queueOf s key).eraseP (fun r => decide (r.txn_ = txn)) ∧
    (Release s txn key).ready_txns_ = s.ready_txns_ := by
  rw [Release_nonowner_eq s txn key hfront]
  exact ⟨queueOf_put_self _ _ _ _ _, rfl⟩

theorem Release_last_queue (s : LockManagerA) (txn : Txn) (key : Key) (r : LockRequest)
    (hq : queueOf s key = [r]) (hr : r.txn_ = txn) :
    queueOf (Release s txn key) key = [] ∧
    (Release s txn key).ready_txns_ = s.ready_txns_ := by
  rw [Release_owner_eq s txn key r [] hq hr]
  exact ⟨queueOf_put_self _ _ _ _ _, rfl⟩

theorem Release_promote_queue (s : LockManagerA) (txn : Txn) (key : Key)
    (r next : LockRequest) (rest : List LockRequest)
    (hq : queueOf s key = r :: next :: rest) (hr : r.txn_ = txn) :
    queueOf (Release s txn key) key = next :: rest ∧
    (waitOf s next.txn_ - 1 = 0 →
      (Release s txn key).ready_txns_ = s.ready_txns_ ++ [next.txn_]) ∧
    (waitOf s next.txn_ - 1 ≠ 0 →
      (Release s txn key).ready_txns_ = s.ready_txns_) := by
  have heq := Release_owner_eq s txn key r (next :: rest) hq hr
  simp only at heq
  by_cases hz : waitOf s next.txn_ - 1 = 0
  · rw [if_pos hz] at heq
    rw [heq]
    exact ⟨queueOf_put_self _ _ _ _ _, fun _ => rfl, fun h => absurd hz h⟩
  · rw [if_neg hz] at heq
    rw [heq]
    exact ⟨queueOf_put_self _ _ _ _ _, fun h => absurd h hz, fun _ => rfl⟩

theorem ownsFront_eq_false (s : LockManagerA) (txn : Txn) (key : Key)
    (h : ownsFront s txn key = false) :
    ∀ r, (queueOf s key).head? = some r → r.txn_ ≠ txn := by
  unfold ownsFront at h
  cases hq : queueOf s key with
  | nil => intro r hr; simp at hr
  | cons a rest =>
    intro r hr
    simp only [hq, decide_eq_false_iff_not] at h
    simp only [List.head?_cons, Option.some.injEq] at hr
    exact hr ▸ h

/-- Claim C3. When the request at the front of the queue of `key` belongs to
`txn`, `Release(txn, key)` removes that request and keeps the rest of the
queue in order. If a request `next` is then at the front, the wait count of
its transaction (0 without an entry) drops by exactly one; if the new count is
zero the transaction loses its entry and is added once at the back of the
ready queue, otherwise the entry holds the new count and the ready queue is
unchanged. If the queue is then empty, wait-count table and ready queue are
unchanged. -/
theorem Release_owner_spec (s : LockManagerA) (txn : Txn) (key : Key)
    (r : LockRequest) (rest : List LockRequest)
    (hq : queueOf s key = r :: rest) (hr : r.txn_ = txn) :
    queueOf (Release s txn key) key = rest ∧
    (∀ next rest2, rest = next :: rest2 →
      waitOf (Release s txn key) next.txn_ = waitOf s next.txn_ - 1 ∧
      (waitOf s next.txn_ - 1 = 0 →
        tableGet next.txn_ (Release s txn key).txn_waits_ = none ∧
        (Release s txn key).ready_txns_ = s.ready_txns_ ++ [next.txn_]) ∧
      (waitOf s next.txn_ - 1 ≠ 0 →
        tableGet next.txn_ (Release s txn key).txn_waits_ = some (waitOf s next.txn_ - 1) ∧
        (Release s txn key).ready_txns_ = s.ready_txns_) ∧
      (∀ t, t ≠ next.txn_ →
        tableGet t (Release s txn key).txn_waits_ = tableGet t s.txn_waits_)) ∧
    (rest = [] →
      (Release s txn key).txn_waits_ = s.txn_waits_ ∧
      (Release s txn key).ready_txns_ = s.ready_txns_) := by
  rw [Release_owner_eq s txn key r rest hq hr]
  cases rest with
  | nil => simp [queueOf, tableGet_tablePut_self]
  | cons next rest2 =>
    by_cases hz : waitOf s next.txn_ - 1 = 0
    · simp only [hz, if_true]
      refine ⟨queueOf_put_self _ _ _ _ _, ?_, by simp⟩
      intro n r2 hn
      simp only [List.cons.injEq] at hn
      obtain ⟨rfl, rfl⟩ := hn
      refine ⟨?_, ?_, ?_, ?_⟩
      · rw [hz]; simp [waitOf, tableGet_tableErase_self]
      · intro _; simp [tableGet_tableErase_self]
      · intro h; exact absurd hz h
      · intro t ht; exact tableGet_tableErase_ne _ ht
    · simp only [hz, if_false]
      refine ⟨queueOf_put_self _ _ _ _ _, ?_, by simp⟩
      intro n r2 hn
      simp only [List.cons.injEq] at hn
      obtain ⟨rfl, rfl⟩ := hn
      refine ⟨?_, ?_, ?_, ?_⟩
      · simp [waitOf, tableGet_tablePut_self]
      · intro h; exact absurd h hz
      · intro _; simp [tableGet_tablePut_self]
      · intro t ht; exact tableGet_tablePut_ne _ _ ht

/-- Witness of claim C3: transaction 1 owns key 0 with transaction 2 queued
behind it, and releases the key. -/
theorem Release_owner_spec_witness :
    queueOf (run LockManagerA.empty [Call.WriteLock 1 0, Call.WriteLock 2 0]) 0 =
      [exclusiveRequest 1, exclusiveRequest 2] ∧
    queueOf (Release (run LockManagerA.empty [Call.WriteLock 1 0, Call.WriteLock 2 0]) 1 0) 0 =
      [exclusiveRequest 2] :=
  ⟨by decide,
    (Release_owner_spec (run LockManagerA.empty [Call.WriteLock 1 0, Call.WriteLock 2 0]) 1 0
      (exclusiveRequest 1) [exclusiveRequest 2] (by decide) rfl).1⟩

/-- Claim C8, amended. When the front request of the queue of `key` does not
belong to `txn` (the queue is empty, or another transaction is at its front),
`Release(txn, key)` erases the first request of `txn` from the queue (nothing
when there is none), keeps the order of the others, and leaves the wait-count
table, the ready queue and the table entry of every other key unchanged. When
`txn` has no request for `key`, the content of every queue is unchanged; the
whole state is unchanged if the lock table already holds a queue for `key`,
and otherwise the one change is that an empty queue is created for `key`. -/
theorem Release_nonowner_spec (s : LockManagerA) (txn : Txn) (key : Key)
    (hfront : ownsFront s txn key = false) :
    queueOf (Release s txn key) key =
      (queueOf s key).eraseP (fun r => decide (r.txn_ = txn)) ∧
    (Release s txn key).txn_waits_ = s.txn_waits_ ∧
    (Release s txn key).ready_txns_ = s.ready_txns_ ∧
    (∀ k, k ≠ key →
      tableGet k (Release s txn key).lock_table_ = tableGet k s.lock_table_) ∧
    ((∀ r ∈ queueOf s key, r.txn_ ≠ txn) →
      (∀ k, queueOf (Release s txn key) k = queueOf s k) ∧
      (tableGet key s.lock_table_ ≠ none → Release s txn key = s) ∧
      (tableGet key s.lock_table_ = none →
        Release s txn key = { s with lock_table_ := tablePut key [] s.lock_table_ })) := by
  have hno := ownsFront_eq_false s txn key hfront
  rw [Release_nonowner_eq s txn key hno]
  have hq : queueOf { s with lock_table_ := tablePut key ((queueOf s key).eraseP
      (fun r => decide (r.txn_ = txn))) s.lock_table_ } key =
      (queueOf s key).eraseP (fun r => decide (r.txn_ = txn)) := queueOf_put_self _ _ _ _ _
  refine ⟨hq, rfl, rfl, fun k hk => tableGet_tablePut_ne _ _ hk, ?_⟩
  intro hno
  have he : (queueOf s key).eraseP (fun r => decide (r.txn_ = txn)) = queueOf s key := by
    apply List.eraseP_of_forall_not
    intro r hr
    simpa using hno r hr
  rw [he]
  refine ⟨?_, ?_, ?_⟩
  · intro k
    by_cases hk : k = key
    · subst hk; exact queueOf_put_self _ _ _ _ _
    · simp only [queueOf]; rw [tableGet_tablePut_ne _ _ hk]
  · intro hsome
    cases hg : tableGet key s.lock_table_ with
    | none => exact absurd hg hsome
    | some q =>
      have : queueOf s key = q := by simp [queueOf, hg]
      rw [this, tablePut_of_tableGet hg]
  · intro hnone
    simp [queueOf, hnone]

/-- Witness of claim C8: transaction 2 is queued on key 0 behind transaction 1
and releases the key. -/
theorem Release_nonowner_spec_witness :
    ownsFront (run LockManagerA.empty [Call.WriteLock 1 0, Call.WriteLock 2 0]) 2 0 = false ∧
    queueOf (Release (run LockManagerA.empty [Call.WriteLock 1 0, Call.WriteLock 2 0]) 2 0) 0 =
      [exclusiveRequest 1] ∧
    (Release (run LockManagerA.empty [Call.WriteLock 1 0, Call.WriteLock 2 0]) 2 0).txn_waits_ =
      (run LockManagerA.empty [Call.WriteLock 1 0, Call.WriteLock 2 0]).txn_waits_ :=
  ⟨by decide,
    (Release_nonowner_spec (run LockManagerA.empty [Call.WriteLock 1 0, Call.WriteLock 2 0])
      2 0 (by decide)).1,
    (Release_nonowner_spec (run LockManagerA.empty [Call.WriteLock 1 0, Call.WriteLock 2 0])
      2 0 (by decide)).2.1⟩

/-- Claim C8 as stated fails: on the empty lock manager transaction 1 has no
request for key 0 and the queue of key 0 is empty, yet `Release(1, 0)` changes
the state, because `_getLockQueue` creates an empty queue for the key. -/
theorem Release_unlocked_key_adds_queue :
    ownsFront LockManagerA.empty 1 0 = false ∧
    queueOf LockManagerA.empty 0 = [] ∧
    Release LockManagerA.empty 1 0 ≠ LockManagerA.empty := by
  decide

theorem lockAll_behind (key : Key) (txns : List Txn) :
    ∀ (s : LockManagerA), queueOf s key ≠ [] → txns.Nodup →
      (lockAll key txns s).1 = List.replicate txns.length false ∧
      queueOf (lockAll key txns s).2 key = queueOf s key ++ txns.map exclusiveRequest ∧
      (lockAll key txns s).2.ready_txns_ = s.ready_txns_ ∧
      (∀ t, t ∈ txns → waitOf (lockAll key txns s).2 t = waitOf s t + 1) ∧
      (∀ t, t ∉ txns → waitOf (lockAll key txns s).2 t = waitOf s t) := by
  induction txns with
  | nil => intro s _ _; simp [lockAll]
  | cons txn txns ih =>
    intro s hq hnd
    have hnd2 : txns.Nodup := (List.nodup_cons.mp hnd).2
    have hnotin : txn ∉ txns := (List.nodup_cons.mp hnd).1
    have hemp : (queueOf s key).isEmpty = false := by
      cases h : queueOf s key with
      | nil => exact absurd h hq
      | cons a b => rfl
    have hw := WriteLock_eq s txn key
    simp only [hemp, Bool.false_eq_true, if_false] at hw
    have hq1 : queueOf (WriteLock s txn key).2 key = queueOf s key ++ [exclusiveRequest txn] := by
      rw [hw]; exact queueOf_put_self _ _ _ _ _
    have hne1 : queueOf (WriteLock s txn key).2 key ≠ [] := by rw [hq1]; simp
    have hwait : ∀ t, waitOf (WriteLock s txn key).2 t =
        if t = txn then waitOf s txn + 1 else waitOf s t := by
      intro t
      rw [hw]
      by_cases ht : t = txn
      · subst ht; simp [waitOf, tableGet_tablePut_self]
      · simp only [waitOf, ht, if_false]; rw [tableGet_tablePut_ne _ _ ht]
    obtain ⟨h1, h2, h3, h4, h5⟩ := ih (WriteLock s txn key).2 hne1 hnd2
    refine ⟨?_, ?_, ?_, ?_, ?_⟩
    · simp only [lockAll, h1, List.length_cons, List.replicate_succ]
      rw [hw]
    · simp only [lockAll, h2, hq1, List.map_cons, List.append_assoc, List.singleton_append]
    · simp only [lockAll, h3]; rw [hw]
    · intro t ht
      simp only [lockAll]
      rcases List.mem_cons.mp ht with rfl | ht2
      · rw [h5 t hnotin, hwait]; simp
      · have hne : t ≠ txn := fun h => hnotin (h ▸ ht2)
        rw [h4 t ht2, hwait]; simp [hne]
    · intro t ht
      simp only [lockAll]
      have hne : t ≠ txn := fun h => ht (h ▸ List.mem_cons_self _ _)
      have ht2 : t ∉ txns := fun h => ht (List.mem_cons_of_mem _ h)
      rw [h5 t ht2, hwait]; simp [hne]

theorem releaseAll_queue (key : Key) (i : Nat) :
    ∀ (s : LockManagerA) (txn : Txn) (rest : List Txn),
      queueOf s key = (txn :: rest).map exclusiveRequest → rest.Nodup →
      (∀ t, t ∈ rest → waitOf s t = 1) →
      (releaseAll key ((txn :: rest).take i) s).ready_txns_ = s.ready_txns_ ++ rest.take i := by
  induction i with
  | zero => intro s txn rest _ _ _; simp [releaseAll]
  | succ i ih =>
    intro s txn rest hq hnd hw
    have hq2 : queueOf s key = exclusiveRequest txn :: rest.map exclusiveRequest := by
      simpa using hq
    have hrel := Release_owner_eq s txn key _ _ hq2 rfl
    simp only [List.take_succ_cons, releaseAll, List.foldl_cons]
    cases rest with
    | nil =>
      simp only [List.map_nil] at hrel
      rw [hrel]
      cases i <;> simp
    | cons next rest2 =>
      have hone : waitOf s next = 1 := hw next (List.mem_cons_self _ _)
      have hnd2 : rest2.Nodup := (List.nodup_cons.mp hnd).2
      have hnotin : next ∉ rest2 := (List.nodup_cons.mp hnd).1
      simp only [List.map_cons, exclusiveRequest, hone, sub_self, if_true] at hrel
      have hstep := ih (Release s txn key) next rest2
        (by rw [hrel]; simp [queueOf, tableGet_tablePut_self, exclusiveRequest]) hnd2
        (by
          intro t ht
          have hne : t ≠ next := fun h => hnotin (h ▸ ht)
          rw [hrel]
          simp only [waitOf]
          rw [tableGet_tableErase_ne _ hne]
          exact hw t (List.mem_cons_of_mem _ ht))
      simp only [releaseAll] at hstep
      rw [hstep, hrel]
      simp

/-- Claim C1. From the empty lock manager, `WriteLock(Ti, key)` for pairwise
distinct `T1 .. Tn` (`n ≥ 1`) on one key returns true for `T1` and false for
all the others. Releasing `T1, T2, ...` in that order afterwards, the ready
queue after the first `i` releases is `[T2, .., T(i+1)]` (cut at `Tn`): the
`i`-th release appends exactly `T(i+1)`, and after releasing `T1 .. T(n-1)`
the ready queue is `[T2, .., Tn]`. -/
theorem FIFO_grant (key : Key) (T1 : Txn) (Ts : List Txn) (hnd : (T1 :: Ts).Nodup) :
    (lockAll key (T1 :: Ts) LockManagerA.empty).1 = true :: List.replicate Ts.length false ∧
    (∀ i, (releaseAll key ((T1 :: Ts).take i)
        (lockAll key (T1 :: Ts) LockManagerA.empty).2).ready_txns_ = Ts.take i) ∧
    (∀ i (h : i < Ts.length),
      (releaseAll key ((T1 :: Ts).take (i + 1))
        (lockAll key (T1 :: Ts) LockManagerA.empty).2).ready_txns_ =
      (releaseAll key ((T1 :: Ts).take i)
        (lockAll key (T1 :: Ts) LockManagerA.empty).2).ready_txns_ ++ [Ts.get ⟨i, h⟩]) ∧
    (releaseAll key (T1 :: Ts).dropLast
        (lockAll key (T1 :: Ts) LockManagerA.empty).2).ready_txns_ = Ts := by
  have hnd2 : Ts.Nodup := (List.nodup_cons.mp hnd).2
  have hnotin : T1 ∉ Ts := (List.nodup_cons.mp hnd).1
  have hfirst : WriteLock LockManagerA.empty T1 key =
      (true, { lock_table_ := [(key, [exclusiveRequest T1])], txn_waits_ := [],
               ready_txns_ := [] }) := by
    rw [WriteLock_eq]; simp [queueOf, LockManagerA.empty, tableGet, tablePut, exclusiveRequest]
  have hq1 : queueOf (WriteLock LockManagerA.empty T1 key).2 key = [exclusiveRequest T1] := by
    rw [hfirst]; simp [queueOf, tableGet]
  obtain ⟨h1, h2, h3, h4, _⟩ :=
    lockAll_behind key Ts (WriteLock LockManagerA.empty T1 key).2 (by rw [hq1]; simp) hnd2
  have hall : ∀ i, (releaseAll key ((T1 :: Ts).take i)
      (lockAll key (T1 :: Ts) LockManagerA.empty).2).ready_txns_ = Ts.take i := by
    intro i
    have := releaseAll_queue key i (lockAll key (T1 :: Ts) LockManagerA.empty).2 T1 Ts
      (by simp only [lockAll, h2, hq1]; simp) hnd2
      (by
        intro t ht
        simp only [lockAll]
        rw [h4 t ht, hfirst]
        simp [waitOf, tableGet])
    rw [this]
    simp only [lockAll, h3]
    rw [hfirst]; simp
  refine ⟨?_, hall, ?_, ?_⟩
  · simp only [lockAll, h1]; rw [hfirst]
  · intro i h
    rw [hall, hall, List.take_succ]
    simp [List.getElem?_eq_getElem h]
  · have hd : (T1 :: Ts).dropLast = (T1 :: Ts).take Ts.length := by
      rw [List.dropLast_eq_take]; simp
    rw [hd, hall]; simp

/-- Witness of claim C1: transactions 1, 2, 3 lock key 7, then 1 and 2
release it. -/
theorem FIFO_grant_witness :
    [1, 2, 3].Nodup ∧
    (lockAll 7 [1, 2, 3] LockManagerA.empty).1 = [true, false, false] ∧
    (releaseAll 7 [1, 2] (lockAll 7 [1, 2, 3] LockManagerA.empty).2).ready_txns_ = [2, 3] :=
  ⟨by decide, (FIFO_grant 7 1 [2, 3] (by decide)).1, (FIFO_grant 7 1 [2, 3] (by decide)).2.2.2⟩

/-! ## Wait counts against pending requests -/

theorem pendingIn_append_single (T : Txn) (q : List LockRequest) (r : LockRequest) :
    pendingIn T (q ++ [r]) =
      pendingIn T q + (if q ≠ [] ∧ r.txn_ = T then 1 else 0) := by
  cases q with
  | nil => simp [pendingIn]
  | cons a rest =>
    simp only [pendingIn, List.cons_append, List.tail_cons, List.countP_append, ne_eq,
      reduceCtorEq, not_false_eq_true, true_and]
    by_cases h : r.txn_ = T <;> simp [h]

theorem pendingIn_cons_cons (T : Txn) (r n : LockRequest) (rest : List LockRequest) :
    pendingIn T (r :: n :: rest) = pendingIn T (n :: rest) + (if n.txn_ = T then 1 else 0) := by
  simp only [pendingIn, List.tail_cons, List.countP_cons]
  by_cases h : n.txn_ = T <;> simp [h]

theorem pendingIn_eraseP_le (T txn : Txn) (q : List LockRequest)
    (hfront : ∀ r, q.head? = some r → r.txn_ ≠ txn) :
    pendingIn T (q.eraseP (fun r => decide (r.txn_ = txn))) ≤ pendingIn T q := by
  cases q with
  | nil => simp
  | cons a rest =>
    have ha : a.txn_ ≠ txn := hfront a rfl
    simp only [pendingIn, List.eraseP_cons, ha, decide_False, Bool.false_eq_true, if_false,
      List.tail_cons]
    exact List.Sublist.countP_le _ (List.eraseP_sublist _)

theorem pendingCount_put (s : LockManagerA) (key : Key) (q : List LockRequest)
    (w : List (Txn × Int)) (rd : List Txn) (T : Txn) :
    pendingCount { lock_table_ := tablePut key q s.lock_table_, txn_waits_ := w,
                   ready_txns_ := rd } T + pendingIn T (queueOf s key) =
      pendingCount s T + pendingIn T q :=
  sum_tablePut (pendingIn T) key q [] rfl s.lock_table_

/-- The boolean `hasPending` says that some key's queue holds a request of
the transaction behind its front. -/
theorem hasPending_iff (s : LockManagerA) (T : Txn) :
    hasPending s T = true ↔ ∃ key, ∃ r ∈ (queueOf s key).tail, r.txn_ = T := by
  unfold hasPending
  simp only [List.any_eq_true, decide_eq_true_eq]
  constructor
  · rintro ⟨e, _, r, hr, hT⟩
    exact ⟨e.1, r, hr, hT⟩
  · rintro ⟨key, r, hr, hT⟩
    cases hg : tableGet key s.lock_table_ with
    | none => simp [queueOf, hg] at hr
    | some q => exact ⟨(key, q), tableGet_mem hg, r, hr, hT⟩

theorem pendingIn_pos_iff (T : Txn) (q : List LockRequest) :
    0 < pendingIn T q ↔ ∃ r ∈ q.tail, r.txn_ = T := by
  simp [pendingIn, List.countP_pos_iff]

theorem pendingCount_pos_of_hasPending (s : LockManagerA) (T : Txn)
    (h : hasPending s T = true) : 0 < pendingCount s T := by
  obtain ⟨key, r, hr, hT⟩ := (hasPending_iff s T).mp h
  cases hg : tableGet key s.lock_table_ with
  | none => simp [queueOf, hg] at hr
  | some q =>
    have hq : queueOf s key = q := by simp [queueOf, hg]
    rw [hq] at hr
    have hpos : 0 < pendingIn T q := (pendingIn_pos_iff T q).mpr ⟨r, hr, hT⟩
    have hmem : pendingIn T q ∈ s.lock_table_.map (fun e => pendingIn T e.2) :=
      List.mem_map.mpr ⟨(key, q), tableGet_mem hg, rfl⟩
    exact lt_of_lt_of_le hpos (List.single_le_sum (by simp) _ hmem)

theorem hasPending_of_pendingCount_pos (s : LockManagerA) (T : Txn) (hnd : KeysNodup s)
    (h : 0 < pendingCount s T) : hasPending s T = true := by
  unfold pendingCount at h
  have : ∃ x ∈ s.lock_table_.map (fun e => pendingIn T e.2), 0 < x := by
    by_contra hno
    push_neg at hno
    have hz : (s.lock_table_.map (fun e => pendingIn T e.2)).sum = 0 :=
      List.sum_eq_zero (fun x hx => Nat.le_zero.mp (hno x hx))
    omega
  obtain ⟨x, hx, hpos⟩ := this
  obtain ⟨e, he, rfl⟩ := List.mem_map.mp hx
  obtain ⟨r, hr, hT⟩ := (pendingIn_pos_iff T e.2).mp hpos
  have hg : tableGet e.1 s.lock_table_ = some e.2 := tableGet_of_mem hnd he
  rw [hasPending_iff]
  exact ⟨e.1, r, by simpa [queueOf, hg] using hr, hT⟩

theorem waitOf_nonneg (s : LockManagerA) (hpos : WaitsPositive s) (T : Txn) :
    0 ≤ waitOf s T := by
  unfold waitOf
  cases hg : tableGet T s.txn_waits_ with
  | none => simp
  | some c =>
    have := hpos T c hg
    simp only [Option.getD_some]
    omega

theorem WriteLock_pendingCount (s : LockManagerA) (txn : Txn) (key : Key) (T : Txn) :
    pendingCount (WriteLock s txn key).2 T =
      pendingCount s T + (if queueOf s key ≠ [] ∧ txn = T then 1 else 0) := by
  rw [WriteLock_eq]
  have h := pendingCount_put s key
    (queueOf s key ++ [{ mode_ := LockMode.EXCLUSIVE, txn_ := txn }])
    (if (queueOf s key).isEmpty then s.txn_waits_
      else tablePut txn (waitOf s txn + 1) s.txn_waits_) s.ready_txns_ T
  rw [pendingIn_append_single] at h
  simp only at h ⊢
  omega

theorem WriteLock_waitOf (s : LockManagerA) (txn : Txn) (key : Key) (T : Txn) :
    waitOf (WriteLock s txn key).2 T =
      waitOf s T + (if queueOf s key ≠ [] ∧ txn = T then 1 else 0) := by
  rw [WriteLock_eq]
  cases hq : queueOf s key with
  | nil => simp [waitOf]
  | cons a rest =>
    by_cases hT : T = txn
    · subst hT
      simp [waitOf, tableGet_tablePut_self]
    · have hT2 : ¬ txn = T := fun h => hT h.symm
      simp only [waitOf, List.isEmpty_cons, Bool.false_eq_true, if_false, ne_eq, reduceCtorEq,
        not_false_eq_true, hT2, and_false, add_zero]
      rw [tableGet_tablePut_ne _ _ hT]

theorem WriteLock_keys (s : LockManagerA) (txn : Txn) (key : Key) (h : KeysNodup s) :
    KeysNodup (WriteLock s txn key).2 := by
  rw [WriteLock_eq]
  exact keys_tablePut _ _ _ h

theorem WriteLock_positive (s : LockManagerA) (txn : Txn) (key : Key)
    (h : WaitsPositive s) : WaitsPositive (WriteLock s txn key).2 := by
  rw [WriteLock_eq]
  intro T c hc
  simp only at hc
  by_cases hq : (queueOf s key).isEmpty = true
  · simp only [hq, if_true] at hc
    exact h T c hc
  · simp only [hq, Bool.false_eq_true, if_false] at hc
    by_cases hT : T = txn
    · subst hT
      rw [tableGet_tablePut_self] at hc
      have := waitOf_nonneg s h T
      simp only [Option.some.injEq] at hc
      omega
    · rw [tableGet_tablePut_ne _ _ hT] at hc
      exact h T c hc

/-- The three ways a `Release` call can go. -/
theorem Release_cases (s : LockManagerA) (txn : Txn) (key : Key) :
    (∀ r, (queueOf s key).head? = some r → r.txn_ ≠ txn) ∨
    (∃ r, queueOf s key = [r] ∧ r.txn_ = txn) ∨
    (∃ r next rest, queueOf s key = r :: next :: rest ∧ r.txn_ = txn) := by
  cases hq : queueOf s key with
  | nil => left; simp
  | cons r rest =>
    by_cases hr : r.txn_ = txn
    · cases rest with
      | nil => right; left; exact ⟨r, rfl, hr⟩
      | cons next rest2 => right; right; exact ⟨r, next, rest2, rfl, hr⟩
    · left
      intro r2 h2
      simp only [List.head?_cons, Option.some.injEq] at h2
      exact h2 ▸ hr

theorem Release_keys (s : LockManagerA) (txn : Txn) (key : Key) (h : KeysNodup s) :
    KeysNodup (Release s txn key) := by
  rcases Release_cases s txn key with hno | ⟨r, hq, hr⟩ | ⟨r, next, rest, hq, hr⟩
  · rw [Release_nonowner_eq s txn key hno]
    exact keys_tablePut _ _ _ h
  · rw [Release_owner_eq s txn key r [] hq hr]
    exact keys_tablePut _ _ _ h
  · rw [Release_owner_eq s txn key r (next :: rest) hq hr]
    simp only
    split <;> exact keys_tablePut _ _ _ h

/-- Effect of a `Release` that promotes `next`: counts of pending requests
and wait counts both drop by one for `next.txn_` and stay for the others. -/
theorem Release_promote_counts (s : LockManagerA) (txn : Txn) (key : Key)
    (r next : LockRequest) (rest : List LockRequest)
    (hq : queueOf s key = r :: next :: rest) (hr : r.txn_ = txn) (T : Txn) :
    pendingCount (Release s txn key) T + (if next.txn_ = T then 1 else 0) = pendingCount s T ∧
    waitOf (Release s txn key) T = waitOf s T - (if next.txn_ = T then 1 else 0) := by
  rw [Release_owner_eq s txn key r (next :: rest) hq hr]
  simp only
  constructor
  · have hcount : ∀ (w : List (Txn × Int)) (rd : List Txn),
        pendingCount { lock_table_ := tablePut key (next :: rest) s.lock_table_,
                       txn_waits_ := w, ready_txns_ := rd } T +
          (if next.txn_ = T then 1 else 0) = pendingCount s T := by
      intro w rd
      have h := pendingCount_put s key (next :: rest) w rd T
      rw [hq, pendingIn_cons_cons] at h
      omega
    split
    · exact hcount _ _
    · exact hcount _ _
  · by_cases hz : waitOf s next.txn_ - 1 = 0
    · simp only [hz, if_true]
      by_cases hT : next.txn_ = T
      · subst hT
        simp only [waitOf, tableGet_tableErase_self, Option.getD_none, if_true]
        simp only [waitOf] at hz
        omega
      · have hT2 : T ≠ next.txn_ := fun h => hT h.symm
        simp only [waitOf, hT, if_false, sub_zero]
        rw [tableGet_tableErase_ne _ hT2]
    · simp only [hz, if_false]
      by_cases hT : next.txn_ = T
      · subst hT
        simp [waitOf, tableGet_tablePut_self]
      · have hT2 : T ≠ next.txn_ := fun h => hT h.symm
        simp only [waitOf, hT, if_false, sub_zero]
        rw [tableGet_tablePut_ne _ _ hT2]

theorem Release_last_counts (s : LockManagerA) (txn : Txn) (key : Key)
    (r : LockRequest) (hq : queueOf s key = [r]) (hr : r.txn_ = txn) (T : Txn) :
    pendingCount (Release s txn key) T = pendingCount s T ∧
    (Release s txn key).txn_waits_ = s.txn_waits_ := by
  rw [Release_owner_eq s txn key r [] hq hr]
  refine ⟨?_, rfl⟩
  have h := pendingCount_put s key [] s.txn_waits_ s.ready_txns_ T
  rw [hq] at h
  simpa [pendingIn] using h

theorem Release_nonowner_counts (s : LockManagerA) (txn : Txn) (key : Key)
    (hfront : ∀ r, (queueOf s key).head? = some r → r.txn_ ≠ txn) (T : Txn) :
    pendingCount (Release s txn key) T ≤ pendingCount s T ∧
    (Release s txn key).txn_waits_ = s.txn_waits_ := by
  rw [Release_nonowner_eq s txn key hfront]
  refine ⟨?_, rfl⟩
  have h := pendingCount_put s key ((queueOf s key).eraseP (fun r => decide (r.txn_ = txn)))
    s.txn_waits_ s.ready_txns_ T
  have hle := pendingIn_eraseP_le T txn (queueOf s key) hfront
  omega

theorem WaitsCover_of_exact (s : LockManagerA) (h : WaitsExact s) : WaitsCover s :=
  fun T => le_of_eq (h T).symm

theorem Release_positive (s : LockManagerA) (txn : Txn) (key : Key)
    (hcov : WaitsCover s) (hpos : WaitsPositive s) : WaitsPositive (Release s txn key) := by
  rcases Release_cases s txn key with hno | ⟨r, hq, hr⟩ | ⟨r, next, rest, hq, hr⟩
  · intro T c hc
    rw [(Release_nonowner_counts s txn key hno T).2] at hc
    exact hpos T c hc
  · intro T c hc
    rw [(Release_last_counts s txn key r hq hr T).2] at hc
    exact hpos T c hc
  · have hone : 1 ≤ waitOf s next.txn_ := by
      have h1 := (Release_promote_counts s txn key r next rest hq hr next.txn_).1
      have h2 := hcov next.txn_
      simp only [if_true] at h1
      omega
    intro T c hc
    rw [Release_owner_eq s txn key r (next :: rest) hq hr] at hc
    simp only at hc
    by_cases hz : waitOf s next.txn_ - 1 = 0
    · simp only [hz, if_true] at hc
      by_cases hT : T = next.txn_
      · subst hT
        rw [tableGet_tableErase_self] at hc
        exact absurd hc (by simp)
      · rw [tableGet_tableErase_ne _ hT] at hc
        exact hpos T c hc
    · simp only [hz, if_false] at hc
      by_cases hT : T = next.txn_
      · subst hT
        rw [tableGet_tablePut_self] at hc
        simp only [Option.some.injEq] at hc
        omega
      · rw [tableGet_tablePut_ne _ _ hT] at hc
        exact hpos T c hc

theorem Release_cover (s : LockManagerA) (txn : Txn) (key : Key)
    (hcov : WaitsCover s) : WaitsCover (Release s txn key) := by
  intro T
  have h0 := hcov T
  rcases Release_cases s txn key with hno | ⟨r, hq, hr⟩ | ⟨r, next, rest, hq, hr⟩
  · obtain ⟨h1, h2⟩ := Release_nonowner_counts s txn key hno T
    simp only [waitOf, h2]
    simp only [waitOf] at h0
    omega
  · obtain ⟨h1, h2⟩ := Release_last_counts s txn key r hq hr T
    simp only [waitOf, h2]
    simp only [waitOf] at h0
    omega
  · obtain ⟨h1, h2⟩ := Release_promote_counts s txn key r next rest hq hr T
    rw [h2]
    by_cases hT : next.txn_ = T
    · rw [if_pos hT] at h1 ⊢
      omega
    · rw [if_neg hT] at h1 ⊢
      omega

theorem ownsFront_iff (s : LockManagerA) (txn : Txn) (key : Key) :
    ownsFront s txn key = true ↔ ∃ r rest, queueOf s key = r :: rest ∧ r.txn_ = txn := by
  unfold ownsFront
  cases hq : queueOf s key with
  | nil => simp
  | cons r rest => simp

theorem Release_exact (s : LockManagerA) (txn : Txn) (key : Key)
    (hown : ownsFront s txn key = true) (hex : WaitsExact s) :
    WaitsExact (Release s txn key) := by
  intro T
  have h0 := hex T
  obtain ⟨r0, rest0, hq0, hr0⟩ := (ownsFront_iff s txn key).mp hown
  rcases Release_cases s txn key with hno | ⟨r, hq, hr⟩ | ⟨r, next, rest, hq, hr⟩
  · exact absurd hr0 (hno r0 (by simp [hq0]))
  · obtain ⟨h1, h2⟩ := Release_last_counts s txn key r hq hr T
    simp only [waitOf, h2]
    simp only [waitOf] at h0
    omega
  · obtain ⟨h1, h2⟩ := Release_promote_counts s txn key r next rest hq hr T
    rw [h2]
    by_cases hT : next.txn_ = T
    · rw [if_pos hT] at h1 ⊢
      omega
    · rw [if_neg hT] at h1 ⊢
      omega

/-- The invariant of every call sequence. -/
theorem step_cover (s : LockManagerA) (c : Call)
    (h : KeysNodup s ∧ WaitsCover s ∧ WaitsPositive s) :
    KeysNodup (step s c) ∧ WaitsCover (step s c) ∧ WaitsPositive (step s c) := by
  obtain ⟨hk, hc, hp⟩ := h
  cases c with
  | WriteLock txn key =>
    refine ⟨WriteLock_keys s txn key hk, ?_, WriteLock_positive s txn key hp⟩
    intro T
    have := hc T
    simp only [step, WriteLock_pendingCount, WriteLock_waitOf]
    split <;> simp <;> omega
  | ReadLock txn key =>
    refine ⟨WriteLock_keys s txn key hk, ?_, WriteLock_positive s txn key hp⟩
    intro T
    have := hc T
    simp only [step, ReadLock, WriteLock_pendingCount, WriteLock_waitOf]
    split <;> simp <;> omega
  | Release txn key =>
    exact ⟨Release_keys s txn key hk, Release_cover s txn key hc,
      Release_positive s txn key hc hp⟩

/-- The invariant of call sequences whose releases are made by owners. -/
theorem step_exact (s : LockManagerA) (c : Call)
    (hown : ∀ txn key, c = Call.Release txn key → ownsFront s txn key = true)
    (h : KeysNodup s ∧ WaitsExact s ∧ WaitsPositive s) :
    KeysNodup (step s c) ∧ WaitsExact (step s c) ∧ WaitsPositive (step s c) := by
  obtain ⟨hk, hx, hp⟩ := h
  cases c with
  | WriteLock txn key =>
    refine ⟨WriteLock_keys s txn key hk, ?_, WriteLock_positive s txn key hp⟩
    intro T
    have := hx T
    simp only [step, WriteLock_pendingCount, WriteLock_waitOf]
    split <;> simp <;> omega
  | ReadLock txn key =>
    refine ⟨WriteLock_keys s txn key hk, ?_, WriteLock_positive s txn key hp⟩
    intro T
    have := hx T
    simp only [step, ReadLock, WriteLock_pendingCount, WriteLock_waitOf]
    split <;> simp <;> omega
  | Release txn key =>
    exact ⟨Release_keys s txn key hk, Release_exact s txn key (hown txn key rfl) hx,
      Release_positive s txn key (WaitsCover_of_exact s hx) hp⟩

theorem run_cover (calls : List Call) :
    ∀ s : LockManagerA, KeysNodup s ∧ WaitsCover s ∧ WaitsPositive s →
      KeysNodup (run s calls) ∧ WaitsCover (run s calls) ∧ WaitsPositive (run s calls) := by
  induction calls with
  | nil => intro s h; exact h
  | cons c calls ih =>
    intro s h
    simp only [run, List.foldl_cons]
    exact ih (step s c) (step_cover s c h)

theorem run_exact (calls : List Call) :
    ∀ s : LockManagerA, ownerOnly s calls = true →
      KeysNodup s ∧ WaitsExact s ∧ WaitsPositive s →
      KeysNodup (run s calls) ∧ WaitsExact (run s calls) ∧ WaitsPositive (run s calls) := by
  induction calls with
  | nil => intro s _ h; exact h
  | cons c calls ih =>
    intro s hown h
    simp only [ownerOnly, Bool.and_eq_true] at hown
    simp only [run, List.foldl_cons]
    refine ih (step s c) hown.2 (step_exact s c ?_ h)
    intro txn key hc
    subst hc
    exact hown.1

theorem empty_invariant :
    KeysNodup LockManagerA.empty ∧ WaitsExact LockManagerA.empty ∧
      WaitsPositive LockManagerA.empty := by
  refine ⟨by simp [KeysNodup, LockManagerA.empty], ?_, ?_⟩
  · intro T; simp [waitOf, pendingCount, LockManagerA.empty, tableGet]
  · intro T c hc; simp [LockManagerA.empty, tableGet] at hc

theorem eraseP_cons_ne (txn : Txn) (rest : List LockRequest) :
    ∀ a : LockRequest, a.txn_ ≠ txn →
      a :: rest.eraseP (fun r => decide (r.txn_ = txn)) ≠ rest := by
  induction rest with
  | nil => intro a _; simp
  | cons b rest ih =>
    intro a ha
    by_cases hb : b.txn_ = txn
    · intro hab
      simp only [List.eraseP_cons, hb, decide_True, cond_true, List.cons.injEq, and_true] at hab
      exact ha (hab ▸ hb)
    · intro hab
      simp only [List.eraseP_cons, hb, decide_False, cond_false, List.cons.injEq] at hab
      exact ih b hb hab.2

theorem becomesFront_nonowner (s : LockManagerA) (txn : Txn) (key : Key) (T : Txn)
    (hfront : ∀ r, (queueOf s key).head? = some r → r.txn_ ≠ txn) :
    becomesFront (queueOf s key) (queueOf (Release s txn key) key) T = false := by
  rw [(Release_nonowner_queue s txn key hfront).1]
  cases hq : queueOf s key with
  | nil => rfl
  | cons a rest =>
    have ha : a.txn_ ≠ txn := hfront a (by simp [hq])
    have hne := eraseP_cons_ne txn rest a ha
    simp only [List.eraseP_cons, ha, decide_False, cond_false, becomesFront, hne,
      Bool.false_and]

theorem wait_entry_of_pending (s : LockManagerA) (T : Txn)
    (hcov : WaitsCover s) (h : hasPending s T = true) : hasWaitEntry s T = true := by
  have h1 := pendingCount_pos_of_hasPending s T h
  have h2 := hcov T
  unfold hasWaitEntry
  unfold waitOf at h2
  cases hg : tableGet T s.txn_waits_ with
  | none => simp only [hg, Option.getD_none] at h2; omega
  | some c => rfl

theorem pending_of_wait_entry (s : LockManagerA) (T : Txn)
    (hk : KeysNodup s) (hx : WaitsExact s) (hp : WaitsPositive s)
    (h : hasWaitEntry s T = true) : hasPending s T = true := by
  unfold hasWaitEntry at h
  cases hg : tableGet T s.txn_waits_ with
  | none => simp [hg] at h
  | some c =>
    have h1 := hp T c hg
    have h2 := hx T
    simp only [waitOf, hg, Option.getD_some] at h2
    exact hasPending_of_pendingCount_pos s T hk (by omega)

/-- Claim C7, amended. In every state reached from the empty lock manager by
`WriteLock`, `ReadLock` and `Release` calls, a transaction with a request at a
non-front position of some queue has an entry in the wait-count table. When
every `Release(txn, key)` of the sequence is made while the front request of
`key`'s queue belongs to `txn`, the converse holds as well: a transaction has
an entry if and only if it has a request at a non-front position. -/
theorem wait_entry_invariant (calls : List Call) (T : Txn) :
    (hasPending (run LockManagerA.empty calls) T = true →
      hasWaitEntry (run LockManagerA.empty calls) T = true) ∧
    (ownerOnly LockManagerA.empty calls = true →
      (hasWaitEntry (run LockManagerA.empty calls) T = true ↔
        hasPending (run LockManagerA.empty calls) T = true)) := by
  have hinv := empty_invariant
  constructor
  · obtain ⟨_, hc, _⟩ := run_cover calls LockManagerA.empty
      ⟨hinv.1, WaitsCover_of_exact _ hinv.2.1, hinv.2.2⟩
    exact wait_entry_of_pending _ T hc
  · intro hown
    obtain ⟨hk, hx, hp⟩ := run_exact calls LockManagerA.empty hown hinv
    exact ⟨pending_of_wait_entry _ T hk hx hp,
      wait_entry_of_pending _ T (WaitsCover_of_exact _ hx)⟩

/-- Witness of claim C7: after transactions 1 and 2 lock key 0, transaction 2
has both a wait-count entry and a request behind the front. -/
theorem wait_entry_invariant_witness :
    ownerOnly LockManagerA.empty [Call.WriteLock 1 0, Call.WriteLock 2 0] = true ∧
    hasPending (run LockManagerA.empty [Call.WriteLock 1 0, Call.WriteLock 2 0]) 2 = true ∧
    hasWaitEntry (run LockManagerA.empty [Call.WriteLock 1 0, Call.WriteLock 2 0]) 2 = true :=
  ⟨by decide, by decide,
    ((wait_entry_invariant [Call.WriteLock 1 0, Call.WriteLock 2 0] 2).2 (by decide)).mpr
      (by decide)⟩

/-- Claim C7 as stated fails: transaction 2 queues on key 0 behind transaction
1 and then releases its request without ever owning the key; its wait-count
entry stays although it has no request left. -/
theorem wait_entry_without_pending :
    hasWaitEntry (run LockManagerA.empty
      [Call.WriteLock 1 0, Call.WriteLock 2 0, Call.Release 2 0]) 2 = true ∧
    hasPending (run LockManagerA.empty
      [Call.WriteLock 1 0, Call.WriteLock 2 0, Call.Release 2 0]) 2 = false := by
  decide

theorem Release_ready_cases (s : LockManagerA) (txn : Txn) (key : Key) :
    (Release s txn key).ready_txns_ = s.ready_txns_ ∨
    ∃ N, (Release s txn key).ready_txns_ = s.ready_txns_ ++ [N] := by
  rcases Release_cases s txn key with hno | ⟨r, hq, hr⟩ | ⟨r, next, rest, hq, hr⟩
  · left; exact (Release_nonowner_queue s txn key hno).2
  · left; exact (Release_last_queue s txn key r hq hr).2
  · obtain ⟨_, h0, h1⟩ := Release_promote_queue s txn key r next rest hq hr
    by_cases hz : waitOf s next.txn_ - 1 = 0
    · right; exact ⟨next.txn_, h0 hz⟩
    · left; exact h1 hz

/-- What a `Release` that appends to the ready queue must have done. -/
theorem Release_ready_only_if (s : LockManagerA) (txn : Txn) (key : Key) (T : Txn)
    (hcov : WaitsCover s)
    (happ : (Release s txn key).ready_txns_ = s.ready_txns_ ++ [T]) :
    becomesFront (queueOf s key) (queueOf (Release s txn key) key) T = true ∧
    hasPending (Release s txn key) T = false := by
  rcases Release_cases s txn key with hno | ⟨r, hq, hr⟩ | ⟨r, next, rest, hq, hr⟩
  · rw [(Release_nonowner_queue s txn key hno).2] at happ
    simp at happ
  · rw [(Release_last_queue s txn key r hq hr).2] at happ
    simp at happ
  · obtain ⟨hqueue, h0, h1⟩ := Release_promote_queue s txn key r next rest hq hr
    by_cases hz : waitOf s next.txn_ - 1 = 0
    · rw [h0 hz] at happ
      have hT : next.txn_ = T := by simpa using happ
      refine ⟨?_, ?_⟩
      · rw [hqueue, hq]
        simp [becomesFront, hT]
      · by_contra hpend
        have hpos := pendingCount_pos_of_hasPending _ T (by simpa using hpend)
        have hcnt := (Release_promote_counts s txn key r next rest hq hr T).1
        have hc := hcov T
        rw [← hT] at hc hcnt hpos
        simp only [if_true] at hcnt
        omega
    · rw [h1 hz] at happ
      simp at happ

/-- When wait counts are exact, a `Release` that brings the last pending
request of a transaction to the front appends it to the ready queue. -/
theorem Release_ready_if (s : LockManagerA) (txn : Txn) (key : Key) (T : Txn)
    (hk : KeysNodup s) (hx : WaitsExact s)
    (hfront : becomesFront (queueOf s key) (queueOf (Release s txn key) key) T = true)
    (hpend : hasPending (Release s txn key) T = false) :
    (Release s txn key).ready_txns_ = s.ready_txns_ ++ [T] := by
  rcases Release_cases s txn key with hno | ⟨r, hq, hr⟩ | ⟨r, next, rest, hq, hr⟩
  · rw [becomesFront_nonowner s txn key T hno] at hfront
    exact absurd hfront (by simp)
  · rw [(Release_last_queue s txn key r hq hr).1, hq] at hfront
    simp [becomesFront] at hfront
  · obtain ⟨hqueue, h0, _⟩ := Release_promote_queue s txn key r next rest hq hr
    rw [hqueue, hq] at hfront
    have hT : next.txn_ = T := by simpa [becomesFront] using hfront
    have hzero : pendingCount (Release s txn key) T = 0 := by
      by_contra hne
      have := hasPending_of_pendingCount_pos _ T (Release_keys s txn key hk)
        (Nat.pos_of_ne_zero hne)
      rw [hpend] at this
      exact absurd this (by simp)
    have hcnt := (Release_promote_counts s txn key r next rest hq hr T).1
    have hw := hx T
    rw [← hT] at hcnt hw hzero
    simp only [if_true] at hcnt
    have hz : waitOf s next.txn_ - 1 = 0 := by omega
    rw [h0 hz, hT]

/-- Claim C6, amended. After any sequence of `WriteLock`, `ReadLock` and
`Release` calls from the empty lock manager, a further `Release(txn, key)`
appends at most one transaction to the ready queue, and it appends `T` only if
it removes the front request of `key`'s queue, a request of `T` thereby
becomes the front, and `T` is left with no request at a non-front position of
any queue. When every `Release` of the sequence was made by the owner of the
front request, the call appends `T` if and only if those conditions hold. -/
theorem Release_ready_spec (calls : List Call) (txn : Txn) (key : Key) (T : Txn) :
    ((Release (run LockManagerA.empty calls) txn key).ready_txns_ =
        (run LockManagerA.empty calls).ready_txns_ ∨
      ∃ N, (Release (run LockManagerA.empty calls) txn key).ready_txns_ =
        (run LockManagerA.empty calls).ready_txns_ ++ [N]) ∧
    ((Release (run LockManagerA.empty calls) txn key).ready_txns_ =
        (run LockManagerA.empty calls).ready_txns_ ++ [T] →
      becomesFront (queueOf (run LockManagerA.empty calls) key)
        (queueOf (Release (run LockManagerA.empty calls) txn key) key) T = true ∧
      hasPending (Release (run LockManagerA.empty calls) txn key) T = false) ∧
    (ownerOnly LockManagerA.empty calls = true →
      ((Release (run LockManagerA.empty calls) txn key).ready_txns_ =
          (run LockManagerA.empty calls).ready_txns_ ++ [T] ↔
        becomesFront (queueOf (run LockManagerA.empty calls) key)
          (queueOf (Release (run LockManagerA.empty calls) txn key) key) T = true ∧
        hasPending (Release (run LockManagerA.empty calls) txn key) T = false)) := by
  have hinv := empty_invariant
  obtain ⟨_, hc, _⟩ := run_cover calls LockManagerA.empty
    ⟨hinv.1, WaitsCover_of_exact _ hinv.2.1, hinv.2.2⟩
  refine ⟨Release_ready_cases _ txn key, Release_ready_only_if _ txn key T hc, ?_⟩
  intro hown
  obtain ⟨hk, hx, _⟩ := run_exact calls LockManagerA.empty hown hinv
  exact ⟨Release_ready_only_if _ txn key T hc,
    fun h => Release_ready_if _ txn key T hk hx h.1 h.2⟩

/-- Witness of claim C6: transactions 1 and 2 lock key 0 and transaction 1
releases it, which makes transaction 2 ready. -/
theorem Release_ready_spec_witness :
    ownerOnly LockManagerA.empty [Call.WriteLock 1 0, Call.WriteLock 2 0] = true ∧
    (Release (run LockManagerA.empty [Call.WriteLock 1 0, Call.WriteLock 2 0]) 1 0).ready_txns_ =
      (run LockManagerA.empty [Call.WriteLock 1 0, Call.WriteLock 2 0]).ready_txns_ ++ [2] :=
  ⟨by decide,
    ((Release_ready_spec [Call.WriteLock 1 0, Call.WriteLock 2 0] 1 0 2).2.2 (by decide)).mpr
      ⟨by decide, by decide⟩⟩

/-- Claim C6 as stated fails: transaction 2 queues behind transaction 1 on keys
0 and 1 and gives up its request on key 1 without owning it, which leaves its
wait count at 2. When transaction 1 then releases key 0, the request of
transaction 2 becomes the front and transaction 2 has no request behind a
front any more, yet it is not appended to the ready queue. -/
theorem Release_promotes_without_ready :
    becomesFront
      (queueOf (run LockManagerA.empty [Call.WriteLock 1 0, Call.WriteLock 1 1,
        Call.WriteLock 2 0, Call.WriteLock 2 1, Call.Release 2 1]) 0)
      (queueOf (Release (run LockManagerA.empty [Call.WriteLock 1 0, Call.WriteLock 1 1,
        Call.WriteLock 2 0, Call.WriteLock 2 1, Call.Release 2 1]) 1 0) 0) 2 = true ∧
    hasPending (Release (run LockManagerA.empty [Call.WriteLock 1 0, Call.WriteLock 1 1,
        Call.WriteLock 2 0, Call.WriteLock 2 1, Call.Release 2 1]) 1 0) 2 = false ∧
    (Release (run LockManagerA.empty [Call.WriteLock 1 0, Call.WriteLock 1 1,
        Call.WriteLock 2 0, Call.WriteLock 2 1, Call.Release 2 1]) 1 0).ready_txns_ =
      (run LockManagerA.empty [Call.WriteLock 1 0, Call.WriteLock 1 1,
        Call.WriteLock 2 0, Call.WriteLock 2 1, Call.Release 2 1]).ready_txns_ := by
  decide

end LockManagerA

namespace MVCCStorage

/-! ## Single calls of the storage -/

theorem CheckWrite_scan_eq_false (txn : Int) (chain : List Version) :
    CheckWrite.scan txn chain = false ↔
      ∃ v ∈ chain, v.version_id_ > txn ∨ v.max_read_id_ > txn := by
  induction chain with
  | nil => simp [CheckWrite.scan]
  | cons v rest ih =>
    by_cases h : v.version_id_ > txn ∨ v.max_read_id_ > txn
    · simp only [CheckWrite.scan, h, if_true, true_iff]
      exact ⟨v, List.mem_cons_self _ _, h⟩
    · simp only [CheckWrite.scan, h, if_false, ih, List.mem_cons, exists_eq_or_imp, false_or]

/-- Claim C5. `CheckWrite(key, txn_id)` returns false exactly when some version
of `key`'s chain, at any position, has `version_id_ > txn_id` or
`max_read_id_ > txn_id`; it returns true for a key without a chain and for a
key with an empty chain. -/
theorem CheckWrite_spec (s : MVCCStorage) (key : Key) (txn_unique_id : Int) :
    (CheckWrite s key txn_unique_id = false ↔
      ∃ v ∈ chainOf s key, v.version_id_ > txn_unique_id ∨ v.max_read_id_ > txn_unique_id) ∧
    (tableGet key s.mvcc_data_ = none → CheckWrite s key txn_unique_id = true) ∧
    (tableGet key s.mvcc_data_ = some [] → CheckWrite s key txn_unique_id = true) := by
  unfold CheckWrite chainOf
  cases h : tableGet key s.mvcc_data_ with
  | none => simp
  | some chain =>
    simp only [Option.getD_some, CheckWrite_scan_eq_false, reduceCtorEq, false_implies,
      Option.some.injEq, true_and]
    intro hc
    subst hc
    rfl

theorem Read_scan_valid (txn : Int) (chain : List Version) :
    ∀ (largest : Int) (result : Value) (valid : Bool),
      (Read.scan txn chain largest result valid).2.2 = true →
      valid = true ∨ ∃ v ∈ (Read.scan txn chain largest result valid).1, txn ≤ v.max_read_id_ := by
  induction chain with
  | nil => intro l r b h; left; simpa [Read.scan] using h
  | cons v rest ih =>
    intro l r b h
    by_cases hc : v.version_id_ ≤ txn ∧ v.version_id_ > l
    · right
      simp only [Read.scan, hc, and_self, if_true, List.mem_cons, exists_eq_or_imp]
      left
      by_cases hm : txn > v.max_read_id_
      · simp [hm]
      · simp only [hm, if_false]; exact not_lt.mp hm
    · simp only [Read.scan, hc, if_false] at h ⊢
      rcases ih l r b h with hb | ⟨u, hu, hle⟩
      · exact Or.inl hb
      · exact Or.inr ⟨u, List.mem_cons_of_mem _ hu, hle⟩

/-- Claim C10. If `Read(key, r)` returns true, then in the state it leaves
`CheckWrite(key, t)` returns false for every `t < r`. -/
theorem Read_then_CheckWrite_rejects (s : MVCCStorage) (key : Key) (result : Value)
    (r t : Int) (hfound : (Read s key result r).1 = true) (ht : t < r) :
    CheckWrite (Read s key result r).2.2 key t = false := by
  unfold Read at hfound ⊢
  cases hg : tableGet key s.mvcc_data_ with
  | none => simp [hg] at hfound
  | some chain =>
    simp only [hg] at hfound ⊢
    rcases Read_scan_valid r chain 0 result false hfound with hb | ⟨v, hv, hle⟩
    · exact absurd hb (by simp)
    · unfold CheckWrite
      simp only [tableGet_tablePut_self]
      rw [CheckWrite_scan_eq_false]
      exact ⟨v, hv, Or.inr (lt_of_lt_of_le ht hle)⟩

/-- Witness of claim C10: a version written at 5 and read at 10 makes
`CheckWrite` at 7 fail. -/
theorem Read_then_CheckWrite_rejects_witness :
    (Read (Write MVCCStorage.empty 0 1 5) 0 0 10).1 = true ∧ (7 : Int) < 10 ∧
    CheckWrite (Read (Write MVCCStorage.empty 0 1 5) 0 0 10).2.2 0 7 = false :=
  ⟨by decide, by decide,
    Read_then_CheckWrite_rejects (Write MVCCStorage.empty 0 1 5) 0 0 10 7 (by decide) (by decide)⟩

theorem tableGet_initial (n : Nat) (key : Nat) :
    tableGet key ((List.range n).map (fun i => (i, [initialVersion]))) =
      if key < n then some [initialVersion] else none := by
  induction n with
  | zero => simp [tableGet]
  | succ n ih =>
    rw [List.range_succ, List.map_append, tableGet_append, ih]
    by_cases h1 : key < n
    · have : key < n + 1 := by omega
      simp [h1, this]
    · by_cases h2 : n = key
      · subst h2
        simp [tableGet]
      · have : ¬ key < n + 1 := by omega
        simp [h1, h2, this, tableGet]

theorem InitStorage_loop_data (n : Nat) :
    (InitStorage.loop n MVCCStorage.empty).mvcc_data_ =
      (List.range n).map (fun i => (i, [initialVersion])) := by
  induction n with
  | zero => rfl
  | succ n ih =>
    have hstep : InitStorage.loop (n + 1) MVCCStorage.empty =
        Write (InitStorage.loop n MVCCStorage.empty) n 0 0 := by
      simp [InitStorage.loop, List.range_succ, List.foldl_append]
    have hnone : tableGet n (InitStorage.loop n MVCCStorage.empty).mvcc_data_ = none := by
      rw [ih, tableGet_initial]; simp
    rw [hstep]
    unfold Write
    simp only [hnone]
    rw [tablePut_of_absent _ hnone, ih, List.range_succ, List.map_append]
    rfl

/-- A chain that holds only the initial version is invisible to `Read`. -/
theorem Read_only_initial_version (s : MVCCStorage) (key : Key) (result : Value)
    (txn_unique_id : Int) (h : tableGet key s.mvcc_data_ = some [initialVersion]) :
    Read s key result txn_unique_id = (false, result, s) := by
  unfold Read
  simp only [h, Read.scan, initialVersion, gt_iff_lt, lt_self_iff_false, and_false, if_false]
  have := tablePut_of_tableGet h
  simp only [initialVersion] at this
  rw [this]

/-- Claim C4, evaluated on the code. After `InitStorage` on a fresh storage,
every key of the keyspace holds only the initial version (`version_id_` 0),
and `Read` of such a key returns false for every reader timestamp, leaving
`*result` and the storage as they were: the scan starts with
`largest_version_id_ = 0` and accepts a version only when its `version_id_`
is strictly larger. -/
theorem Read_after_InitStorage (key : Key) (hkey : key < 1000000) (result : Value)
    (txn_unique_id : Int) :
    Read (InitStorage MVCCStorage.empty) key result txn_unique_id =
      (false, result, InitStorage MVCCStorage.empty) := by
  apply Read_only_initial_version
  unfold InitStorage
  rw [InitStorage_loop_data, tableGet_initial]
  simp [hkey]

/-- Witness for key 42 read at timestamp 5. -/
theorem Read_after_InitStorage_witness :
    (42 : Nat) < 1000000 ∧
    (Read (InitStorage MVCCStorage.empty) 42 7 5).1 = false :=
  ⟨by decide, congrArg Prod.fst (Read_after_InitStorage 42 (by decide) 7 5)⟩

theorem Read_scan_ids (txn : Int) (chain : List Version) :
    ∀ (largest : Int) (result : Value) (valid : Bool),
      (Read.scan txn chain largest result valid).1.map Version.version_id_ =
        chain.map Version.version_id_ := by
  induction chain with
  | nil => intro l r b; rfl
  | cons v rest ih =>
    intro l r b
    by_cases hc : v.version_id_ ≤ txn ∧ v.version_id_ > l
    · simp only [Read.scan, hc, and_self, if_true, List.map_cons, ih]
      by_cases hm : txn > v.max_read_id_ <;> simp [hm]
    · simp only [Read.scan, hc, if_false, List.map_cons, ih]

theorem Read_scan_unchanged (txn : Int) (chain : List Version) :
    ∀ (largest : Int) (result : Value) (valid : Bool),
      (∀ u ∈ chain, ¬ (u.version_id_ ≤ txn ∧ u.version_id_ > largest)) →
      Read.scan txn chain largest result valid = (chain, result, valid) := by
  induction chain with
  | nil => intro l r b _; rfl
  | cons v rest ih =>
    intro l r b h
    have hv := h v (List.mem_cons_self _ _)
    have hrest := ih l r b (fun u hu => h u (List.mem_cons_of_mem _ hu))
    simp only [Read.scan, hv, if_false, hrest]

theorem markRead_eq (txn : Int) (v : Version) :
    (if txn > v.max_read_id_ then { v with max_read_id_ := txn } else v) = markRead txn v := by
  unfold markRead
  by_cases hm : txn > v.max_read_id_
  · simp only [hm, if_true]
    rw [max_eq_right (le_of_lt hm)]
  · simp only [hm, if_false]
    rw [max_eq_left (not_lt.mp hm)]

/-- On a chain with non-increasing version ids the scan of `Read` either
changes nothing, or marks exactly the first version it accepts. -/
theorem Read_scan_descending (txn : Int) (chain : List Version) :
    ∀ (largest : Int) (result : Value) (valid : Bool),
      (chain.map Version.version_id_).Pairwise (fun a b => b ≤ a) →
      ((∀ u ∈ chain, ¬ (u.version_id_ ≤ txn ∧ u.version_id_ > largest)) ∧
        Read.scan txn chain largest result valid = (chain, result, valid)) ∨
      (∃ pre ver post, chain = pre ++ ver :: post ∧
        (∀ u ∈ pre, ¬ (u.version_id_ ≤ txn ∧ u.version_id_ > largest)) ∧
        ver.version_id_ ≤ txn ∧ ver.version_id_ > largest ∧
        Read.scan txn chain largest result valid =
          (pre ++ markRead txn ver :: post, ver.value_, true)) := by
  induction chain with
  | nil => intro l r b _; left; exact ⟨by simp, rfl⟩
  | cons v rest ih =>
    intro l r b hs
    simp only [List.map_cons, List.pairwise_cons, List.mem_map, forall_exists_index, and_imp,
      forall_apply_eq_imp_iff₂] at hs
    by_cases hc : v.version_id_ ≤ txn ∧ v.version_id_ > l
    · right
      refine ⟨[], v, rest, rfl, by simp, hc.1, hc.2, ?_⟩
      have hrest := Read_scan_unchanged txn rest v.version_id_ v.value_ true
        (fun u hu hcu => absurd (hs.1 u hu) (not_le.mpr hcu.2))
      simp only [Read.scan, hc, and_self, if_true, hrest, markRead_eq, List.nil_append]
    · rcases ih l r b hs.2 with ⟨hall, heq⟩ | ⟨pre, ver, post, hch, hpre, h1, h2, heq⟩
      · left
        refine ⟨?_, ?_⟩
        · intro u hu
          rcases List.mem_cons.mp hu with rfl | hu2
          · exact hc
          · exact hall u hu2
        · simp only [Read.scan, hc, if_false, heq]
      · right
        refine ⟨v :: pre, ver, post, by simp [hch], ?_, h1, h2, ?_⟩
        · intro u hu
          rcases List.mem_cons.mp hu with rfl | hu2
          · exact hc
          · exact hpre u hu2
        · simp only [Read.scan, hc, if_false, heq, List.cons_append]

theorem chainOf_Read (s : MVCCStorage) (key : Key) (result : Value) (txn : Int) (k : Key) :
    chainOf (Read s key result txn).2.2 k =
      if k = key then (Read.scan txn (chainOf s key) 0 result false).1 else chainOf s k := by
  unfold Read chainOf
  cases hg : tableGet key s.mvcc_data_ with
  | none =>
    by_cases hk : k = key
    · subst hk; simp [hg, Read.scan]
    · simp [hk]
  | some chain =>
    by_cases hk : k = key
    · subst hk; simp [tableGet_tablePut_self]
    · simp only [hk, if_false]; rw [tableGet_tablePut_ne _ _ hk]

theorem chainOf_Write (s : MVCCStorage) (key : Key) (value : Value) (txn : Int) (k : Key) :
    chainOf (Write s key value txn) k =
      if k = key then
        { value_ := value, version_id_ := txn, max_read_id_ := txn } :: chainOf s key
      else chainOf s k := by
  unfold Write chainOf
  cases hg : tableGet key s.mvcc_data_ with
  | none =>
    by_cases hk : k = key
    · subst hk; simp [tableGet_tablePut_self]
    · simp only [hk, if_false]; rw [tableGet_tablePut_ne _ _ hk]
  | some chain =>
    by_cases hk : k = key
    · subst hk; simp [tableGet_tablePut_self]
    · simp only [hk, if_false]; rw [tableGet_tablePut_ne _ _ hk]

theorem CheckWrite_eq_scan (s : MVCCStorage) (key : Key) (txn : Int) :
    CheckWrite s key txn = CheckWrite.scan txn (chainOf s key) := by
  unfold CheckWrite chainOf
  cases tableGet key s.mvcc_data_ <;> rfl

theorem Read_state_result (s : MVCCStorage) (key : Key) (r1 r2 : Value) (txn : Int) :
    (Read s key r1 txn).2.2 = (Read s key r2 txn).2.2 := by
  have hscan : ∀ (chain : List Version) (l : Int) (a b : Value) (v w : Bool),
      (Read.scan txn chain l a v).1 = (Read.scan txn chain l b w).1 := by
    intro chain
    induction chain with
    | nil => intros; rfl
    | cons x rest ih =>
      intro l a b v w
      by_cases hc : x.version_id_ ≤ txn ∧ x.version_id_ > l
      · simp only [Read.scan, hc, and_self, if_true]
      · simp only [Read.scan, hc, if_false, ih l a b v w]
  unfold Read
  cases hg : tableGet key s.mvcc_data_ with
  | none => rfl
  | some chain => simp only [hscan chain 0 r1 r2 false false]

theorem ChainsDescending_Read (s : MVCCStorage) (key : Key) (result : Value) (txn : Int)
    (h : ChainsDescending s) : ChainsDescending (Read s key result txn).2.2 := by
  intro k
  rw [chainOf_Read]
  by_cases hk : k = key
  · simp only [hk, if_true, Read_scan_ids]; exact h key
  · simp only [hk, if_false]; exact h k

theorem ChainsDescending_Write (s : MVCCStorage) (key : Key) (value : Value) (txn : Int)
    (h : ChainsDescending s) (hcw : CheckWrite s key txn = true) :
    ChainsDescending (Write s key value txn) := by
  intro k
  rw [chainOf_Write]
  by_cases hk : k = key
  · simp only [hk, if_true, List.map_cons, List.pairwise_cons]
    refine ⟨?_, h key⟩
    intro a ha
    obtain ⟨u, hu, rfl⟩ := List.mem_map.mp ha
    by_contra hlt
    have hf : CheckWrite s key txn = false := by
      rw [CheckWrite_eq_scan, CheckWrite_scan_eq_false]
      exact ⟨u, hu, Or.inl (not_le.mp hlt)⟩
    rw [hcw] at hf
    exact absurd hf (by decide)
  · simp only [hk, if_false]; exact h k

theorem ChainsDescending_guardedRun (ops : List Op) :
    ∀ (s0 s : MVCCStorage), ChainsDescending s0 → guardedRun s0 ops = some s →
      ChainsDescending s := by
  induction ops with
  | nil =>
    intro s0 s h0 hr
    simp only [guardedRun, Option.some.injEq] at hr
    exact hr ▸ h0
  | cons op ops ih =>
    intro s0 s h0 hr
    cases op with
    | Read key txn =>
      simp only [guardedRun, guardedStep] at hr
      exact ih _ s (ChainsDescending_Read s0 key 0 txn h0) hr
    | Write key value txn =>
      by_cases hcw : CheckWrite s0 key txn = true
      · simp only [guardedRun, guardedStep, hcw, if_true] at hr
        exact ih _ s (ChainsDescending_Write s0 key value txn h0 hcw) hr
      · simp [guardedRun, guardedStep, hcw] at hr

theorem ChainsDescending_empty : ChainsDescending MVCCStorage.empty := by
  intro k
  simp [chainOf, MVCCStorage.empty, tableGet]

/-- Claim C9, amended. In every state reached from the empty storage by `Read`
calls and by `Write(key, v, t)` calls each made when `CheckWrite(key, t)`
returns true just before it: if `Read(key, txn_id)` returns true, it selected
a version `ver` of `key`'s chain with the largest `version_id_` among those
`≤ txn_id` (every version in front of it is newer than `txn_id`), it returns
the value of `ver`, and afterwards the chain is the old chain with the
`max_read_id_` of `ver` set to `max(max_read_id_, txn_id)` and nothing else
changed, and the chain of every other key is unchanged; if `Read` returns
false, the state and `*result` are unchanged. -/
theorem Read_frame_guarded (ops : List Op) (s : MVCCStorage)
    (hrun : guardedRun MVCCStorage.empty ops = some s)
    (key : Key) (result : Value) (txn_unique_id : Int) :
    ((Read s key result txn_unique_id).1 = true →
      ∃ pre ver post,
        chainOf s key = pre ++ ver :: post ∧
        (∀ u ∈ pre, txn_unique_id < u.version_id_) ∧
        ver.version_id_ ≤ txn_unique_id ∧
        (∀ u ∈ chainOf s key, u.version_id_ ≤ txn_unique_id →
          u.version_id_ ≤ ver.version_id_) ∧
        (Read s key result txn_unique_id).2.1 = ver.value_ ∧
        chainOf (Read s key result txn_unique_id).2.2 key =
          pre ++ markRead txn_unique_id ver :: post ∧
        (∀ k, k ≠ key →
          tableGet k (Read s key result txn_unique_id).2.2.mvcc_data_ =
            tableGet k s.mvcc_data_)) ∧
    ((Read s key result txn_unique_id).1 = false →
      (Read s key result txn_unique_id).2.2 = s ∧
      (Read s key result txn_unique_id).2.1 = result) := by
  have hdesc : ChainsDescending s :=
    ChainsDescending_guardedRun ops _ s ChainsDescending_empty hrun
  have hkey := hdesc key
  unfold Read chainOf
  unfold chainOf at hkey
  cases hg : tableGet key s.mvcc_data_ with
  | none => simp
  | some chain =>
    simp only [hg, Option.getD_some] at hkey ⊢
    rcases Read_scan_descending txn_unique_id chain 0 result false hkey with
      ⟨_, heq⟩ | ⟨pre, ver, post, hch, hpre, h1, h2, heq⟩
    · simp only [heq, Bool.false_eq_true, false_implies, true_and, and_true, forall_true_left]
      rw [tablePut_of_tableGet hg]
    · simp only [heq, forall_true_left, Bool.true_eq_false, false_implies, and_true,
        tableGet_tablePut_self, Option.getD_some]
      have hs := hkey
      rw [hch] at hs
      simp only [List.map_append, List.map_cons, List.pairwise_append, List.pairwise_cons,
        List.mem_map, forall_exists_index, and_imp, forall_apply_eq_imp_iff₂, List.mem_cons,
        forall_eq_or_imp] at hs
      have hprelt : ∀ u ∈ pre, txn_unique_id < u.version_id_ := by
        intro u hu
        have hge : ver.version_id_ ≤ u.version_id_ := (hs.2.2 u hu).1
        by_contra hnot
        exact hpre u hu ⟨not_lt.mp hnot, lt_of_lt_of_le h2 hge⟩
      refine ⟨pre, ver, post, hch, hprelt, h1, ?_, rfl, rfl, ?_⟩
      · intro u hu hle
        rw [hch] at hu
        rcases List.mem_append.mp hu with hu1 | hu2
        · exact absurd hle (not_le.mpr (hprelt u hu1))
        · rcases List.mem_cons.mp hu2 with rfl | hu3
          · exact le_refl _
          · exact hs.2.1.1 u hu3
      · intro k hk
        exact tableGet_tablePut_ne _ _ hk

/-- Witness of claim C9: key 3 written at 2, 5 and 9, then read at 6. -/
theorem Read_frame_guarded_witness :
    guardedRun MVCCStorage.empty [Op.Write 3 11 2, Op.Write 3 22 5, Op.Write 3 33 9] =
      some (Write (Write (Write MVCCStorage.empty 3 11 2) 3 22 5) 3 33 9) ∧
    (Read (Write (Write (Write MVCCStorage.empty 3 11 2) 3 22 5) 3 33 9) 3 0 6).1 = true ∧
    ∃ pre ver post,
      chainOf (Write (Write (Write MVCCStorage.empty 3 11 2) 3 22 5) 3 33 9) 3 =
        pre ++ ver :: post ∧
      chainOf (Read (Write (Write (Write MVCCStorage.empty 3 11 2) 3 22 5) 3 33 9) 3 0 6).2.2 3 =
        pre ++ markRead 6 ver :: post :=
  ⟨by decide, by decide,
    match (Read_frame_guarded [Op.Write 3 11 2, Op.Write 3 22 5, Op.Write 3 33 9]
      (Write (Write (Write MVCCStorage.empty 3 11 2) 3 22 5) 3 33 9) (by decide) 3 0 6).1
      (by decide) with
    | ⟨pre, ver, post, h1, _, _, _, _, h2, _⟩ => ⟨pre, ver, post, h1, h2⟩⟩

/-- Claim C9 as stated fails: key 3 is written at timestamp 5 and then at
timestamp 2, which leaves the older version in front. `Read(3, 6)` returns the
value 11 of version 5, and on its way also raises the `max_read_id_` of
version 2 from 2 to 6. -/
theorem Read_marks_passed_over_version :
    (Read (Write (Write MVCCStorage.empty 3 11 5) 3 22 2) 3 0 6).1 = true ∧
    (Read (Write (Write MVCCStorage.empty 3 11 5) 3 22 2) 3 0 6).2.1 = 11 ∧
    chainOf (Write (Write MVCCStorage.empty 3 11 5) 3 22 2) 3 =
      [{ value_ := 22, max_read_id_ := 2, version_id_ := 2 },
       { value_ := 11, max_read_id_ := 5, version_id_ := 5 }] ∧
    chainOf (Read (Write (Write MVCCStorage.empty 3 11 5) 3 22 2) 3 0 6).2.2 3 =
      [{ value_ := 22, max_read_id_ := 6, version_id_ := 2 },
       { value_ := 11, max_read_id_ := 6, version_id_ := 5 }] := by
  decide

end MVCCStorage

namespace LockManagerA

/-! ## Status -/

theorem getLockQueue_snd_queueOf (s : LockManagerA) (key k : Key) :
    queueOf (_getLockQueue s key).2 k = queueOf s k := by
  unfold _getLockQueue
  cases hg : tableGet key s.lock_table_ with
  | some dq => rfl
  | none =>
    simp only [queueOf]
    by_cases hk : k = key
    · subst hk; simp [tableGet_tablePut_self, hg]
    · rw [tableGet_tablePut_ne _ _ hk]

/-- `Status` in closed form. -/
theorem Status_eq (s : LockManagerA) (key : Key) (owners : List Txn) :
    Status s key owners =
      match queueOf s key with
      | [] => (LockMode.UNLOCKED, owners, (_getLockQueue s key).2)
      | front :: _ => (LockMode.EXCLUSIVE, [front.txn_], (_getLockQueue s key).2) := by
  have hq := getLockQueue_fst s key
  unfold Status
  cases hc : queueOf s key with
  | nil => simp only [hq, hc]
  | cons front rest => simp only [hq, hc]

/-- Claim C16. `Status(key, owners)` returns UNLOCKED exactly when the queue of
`key` is empty and EXCLUSIVE otherwise, never SHARED. When the queue is not
empty, `*owners` after the call is the one-element list with the transaction
of the front request, whatever it held before. The call changes the content
of no queue, and leaves the wait-count table and the ready queue as they
were. -/
theorem Status_spec (s : LockManagerA) (key : Key) (owners : List Txn) :
    ((Status s key owners).1 = LockMode.UNLOCKED ↔ queueOf s key = []) ∧
    (queueOf s key ≠ [] → (Status s key owners).1 = LockMode.EXCLUSIVE) ∧
    (Status s key owners).1 ≠ LockMode.SHARED ∧
    (∀ front rest, queueOf s key = front :: rest →
      (Status s key owners).2.1 = [front.txn_]) ∧
    (∀ k, queueOf (Status s key owners).2.2 k = queueOf s k) ∧
    (Status s key owners).2.2.txn_waits_ = s.txn_waits_ ∧
    (Status s key owners).2.2.ready_txns_ = s.ready_txns_ := by
  rw [Status_eq]
  cases hq : queueOf s key with
  | nil =>
    refine ⟨by simp, by simp, by simp, by simp, ?_, ?_, ?_⟩
    · intro k; exact getLockQueue_snd_queueOf s key k
    · exact getLockQueue_snd_waits s key
    · exact getLockQueue_snd_ready s key
  | cons front rest =>
    refine ⟨by simp, by simp, by simp, ?_, ?_, ?_, ?_⟩
    · intro f r h
      simp only [List.cons.injEq] at h
      rw [h.1]
    · intro k; exact getLockQueue_snd_queueOf s key k
    · exact getLockQueue_snd_waits s key
    · exact getLockQueue_snd_ready s key

/-- Claim C17, evaluated on the code. When the queue of `key` is empty,
`Status(key, owners)` returns UNLOCKED and leaves `*owners` exactly as the
caller passed it: only the EXCLUSIVE branch assigns `*owners`. A list that was
not empty before the call is therefore not empty after it. -/
theorem Status_unlocked_keeps_owners (s : LockManagerA) (key : Key) (owners : List Txn)
    (hq : queueOf s key = []) :
    (Status s key owners).1 = LockMode.UNLOCKED ∧ (Status s key owners).2.1 = owners := by
  rw [Status_eq, hq]
  exact ⟨rfl, rfl⟩

/-- Witness of claim C17: transaction 7 locks key 0, `Status` reports the owner
list `[7]`, transaction 7 releases the key, and a second `Status` with the
same list returns UNLOCKED with `[7]` still in it. -/
theorem Status_unlocked_keeps_owners_witness :
    (Status (WriteLock LockManagerA.empty 7 0).2 0 []).2.1 = [7] ∧
    queueOf (Release (WriteLock LockManagerA.empty 7 0).2 7 0) 0 = [] ∧
    (Status (Release (WriteLock LockManagerA.empty 7 0).2 7 0) 0 [7]).1 = LockMode.UNLOCKED ∧
    (Status (Release (WriteLock LockManagerA.empty 7 0).2 7 0) 0 [7]).2.1 = [7] :=
  ⟨by decide, by decide,
    (Status_unlocked_keeps_owners (Release (WriteLock LockManagerA.empty 7 0).2 7 0) 0 [7]
      (by decide)).1,
    (Status_unlocked_keeps_owners (Release (WriteLock LockManagerA.empty 7 0).2 7 0) 0 [7]
      (by decide)).2⟩

/-! ## Invariants of the wait counts -/

theorem pendingCount_zero_iff (s : LockManagerA) (T : Txn) (hk : KeysNodup s) :
    pendingCount s T = 0 ↔ hasPending s T = false := by
  constructor
  · intro hz
    by_contra hne
    have hp : hasPending s T = true := by simpa using hne
    have := pendingCount_pos_of_hasPending s T hp
    omega
  · intro hf
    by_contra hne
    have := hasPending_of_pendingCount_pos s T hk (Nat.pos_of_ne_zero hne)
    rw [hf] at this
    exact absurd this (by decide)

/-- Claim C18. In every state reached from the empty lock manager by
`WriteLock`, `ReadLock` and `Release` calls, no key is listed twice in the lock
table, every entry of the wait-count table is at least 1, and the wait count
of every transaction (0 without an entry) is at least the number of its
requests at non-front positions over all queues. Hence whenever a `Release`
promotes a request `next` (the queue is `r :: next :: rest` and `r` belongs to
the releasing transaction), the count it decrements exists and is at least 1;
and whenever a `Release` appends `T` to the ready queue, `T` is left with no
request at a non-front position of any queue. -/
theorem wait_counts_cover (calls : List Call) :
    KeysNodup (run LockManagerA.empty calls) ∧
    WaitsPositive (run LockManagerA.empty calls) ∧
    WaitsCover (run LockManagerA.empty calls) ∧
    (∀ txn key r next rest,
      queueOf (run LockManagerA.empty calls) key = r :: next :: rest → r.txn_ = txn →
      ∃ c, tableGet next.txn_ (run LockManagerA.empty calls).txn_waits_ = some c ∧ 1 ≤ c) ∧
    (∀ txn key T,
      (Release (run LockManagerA.empty calls) txn key).ready_txns_ =
        (run LockManagerA.empty calls).ready_txns_ ++ [T] →
      hasPending (Release (run LockManagerA.empty calls) txn key) T = false ∧
      pendingCount (Release (run LockManagerA.empty calls) txn key) T = 0) := by
  have hinv := empty_invariant
  obtain ⟨hk, hc, hp⟩ := run_cover calls LockManagerA.empty
    ⟨hinv.1, WaitsCover_of_exact _ hinv.2.1, hinv.2.2⟩
  refine ⟨hk, hp, hc, ?_, ?_⟩
  · intro txn key r next rest hq _
    have hpend : hasPending (run LockManagerA.empty calls) next.txn_ = true := by
      rw [hasPending_iff]
      exact ⟨key, next, by simp [hq], rfl⟩
    have hpos := pendingCount_pos_of_hasPending _ _ hpend
    have hcov := hc next.txn_
    unfold waitOf at hcov
    cases hg : tableGet next.txn_ (run LockManagerA.empty calls).txn_waits_ with
    | none =>
      simp only [hg, Option.getD_none] at hcov
      omega
    | some c => exact ⟨c, rfl, hp next.txn_ c hg⟩
  · intro txn key T happ
    have hno := (Release_ready_only_if _ txn key T hc happ).2
    exact ⟨hno, (pendingCount_zero_iff _ T (Release_keys _ txn key hk)).mpr hno⟩

/-- Claim C19. In every state reached from the empty lock manager by
`WriteLock`, `ReadLock` and `Release(txn, key)` calls, each release made while
the front request of `key`'s queue belongs to `txn`, no key is listed twice in
the lock table and the wait count of every transaction (0 without an entry)
equals the number of its requests at non-front positions over all queues. A
further `Release` appends `T` to the ready queue exactly when it removes the
front request of the key's queue, a request of `T` thereby becomes the front,
and `T` has no request at a non-front position left. -/
theorem wait_counts_exact (calls : List Call)
    (hown : ownerOnly LockManagerA.empty calls = true) :
    KeysNodup (run LockManagerA.empty calls) ∧
    WaitsExact (run LockManagerA.empty calls) ∧
    (∀ txn key T,
      (Release (run LockManagerA.empty calls) txn key).ready_txns_ =
          (run LockManagerA.empty calls).ready_txns_ ++ [T] ↔
        becomesFront (queueOf (run LockManagerA.empty calls) key)
          (queueOf (Release (run LockManagerA.empty calls) txn key) key) T = true ∧
        pendingCount (Release (run LockManagerA.empty calls) txn key) T = 0) := by
  obtain ⟨hk, hx, _⟩ := run_exact calls LockManagerA.empty hown empty_invariant
  refine ⟨hk, hx, ?_⟩
  intro txn key T
  have hk2 := Release_keys (run LockManagerA.empty calls) txn key hk
  constructor
  · intro happ
    obtain ⟨h1, h2⟩ := Release_ready_only_if _ txn key T (WaitsCover_of_exact _ hx) happ
    exact ⟨h1, (pendingCount_zero_iff _ T hk2).mpr h2⟩
  · rintro ⟨h1, h2⟩
    exact Release_ready_if _ txn key T hk hx h1 ((pendingCount_zero_iff _ T hk2).mp h2)

/-- Witness of claim C19: transactions 1 and 2 lock key 0; the wait count of
transaction 2 equals its one pending request, and the release by transaction
1 makes it ready. -/
theorem wait_counts_exact_witness :
    ownerOnly LockManagerA.empty [Call.WriteLock 1 0, Call.WriteLock 2 0] = true ∧
    waitOf (run LockManagerA.empty [Call.WriteLock 1 0, Call.WriteLock 2 0]) 2 =
      (pendingCount (run LockManagerA.empty [Call.WriteLock 1 0, Call.WriteLock 2 0]) 2 : Int) ∧
    (Release (run LockManagerA.empty [Call.WriteLock 1 0, Call.WriteLock 2 0]) 1 0).ready_txns_ =
      (run LockManagerA.empty [Call.WriteLock 1 0, Call.WriteLock 2 0]).ready_txns_ ++ [2] :=
  ⟨by decide,
    (wait_counts_exact [Call.WriteLock 1 0, Call.WriteLock 2 0] (by decide)).2.1 2,
    ((wait_counts_exact [Call.WriteLock 1 0, Call.WriteLock 2 0] (by decide)).2.2 1 0 2).mpr
      ⟨by decide, by decide⟩⟩

end LockManagerA

namespace MVCCStorage

/-! ## Writes and reads in sequence -/

/-- Claim C11. In the state after `Write(key, v, t)`, `CheckWrite(key, t2)`
returns false for every `t2 < t`. -/
theorem Write_then_CheckWrite_rejects (s : MVCCStorage) (key : Key) (value : Value)
    (t t2 : Int) (ht : t2 < t) :
    CheckWrite (Write s key value t) key t2 = false := by
  rw [CheckWrite_eq_scan, chainOf_Write, CheckWrite_scan_eq_false]
  simp only [if_true]
  exact ⟨{ value_ := value, version_id_ := t, max_read_id_ := t },
    List.mem_cons_self _ _, Or.inl ht⟩

/-- Witness of claim C11: after a write at 5, `CheckWrite` at 3 fails. -/
theorem Write_then_CheckWrite_rejects_witness :
    (3 : Int) < 5 ∧ CheckWrite (Write MVCCStorage.empty 0 1 5) 0 3 = false :=
  ⟨by decide, Write_then_CheckWrite_rejects MVCCStorage.empty 0 1 5 3 (by decide)⟩

/-- Claim C13. After `Write(key, value, txn_id)` the chain of `key` is the new
version `{value, version_id_ = txn_id, max_read_id_ = txn_id}` followed by the
old chain (empty when the key had none), unchanged and in its old order, and
the chain of every other key is unchanged. Nothing is assumed about
`CheckWrite`: the call does this in every state. -/
theorem Write_spec (s : MVCCStorage) (key : Key) (value : Value) (txn_unique_id : Int) :
    chainOf (Write s key value txn_unique_id) key =
      { value_ := value, version_id_ := txn_unique_id, max_read_id_ := txn_unique_id }
        :: chainOf s key ∧
    tableGet key (Write s key value txn_unique_id).mvcc_data_ =
      some ({ value_ := value, version_id_ := txn_unique_id, max_read_id_ := txn_unique_id }
        :: chainOf s key) ∧
    (∀ k, k ≠ key →
      tableGet k (Write s key value txn_unique_id).mvcc_data_ = tableGet k s.mvcc_data_) := by
  unfold Write chainOf
  cases hg : tableGet key s.mvcc_data_ with
  | none =>
    simp only [tableGet_tablePut_self, Option.getD_some, Option.getD_none, true_and]
    intro k hk
    exact tableGet_tablePut_ne _ _ hk
  | some chain =>
    simp only [tableGet_tablePut_self, Option.getD_some, true_and]
    intro k hk
    exact tableGet_tablePut_ne _ _ hk

theorem readMarkRaised_refl (v : Version) : readMarkRaised v v :=
  ⟨rfl, rfl, le_refl _⟩

theorem readMarkRaised_trans {a b c : Version} (h1 : readMarkRaised a b)
    (h2 : readMarkRaised b c) : readMarkRaised a c :=
  ⟨h2.1.trans h1.1, h2.2.1.trans h1.2.1, le_trans h1.2.2 h2.2.2⟩

theorem forall₂_readMarkRaised_refl (l : List Version) : List.Forall₂ readMarkRaised l l := by
  induction l with
  | nil => exact List.Forall₂.nil
  | cons v l ih => exact List.Forall₂.cons (readMarkRaised_refl v) ih

theorem forall₂_readMarkRaised_trans :
    ∀ {l1 l2 l3 : List Version}, List.Forall₂ readMarkRaised l1 l2 →
      List.Forall₂ readMarkRaised l2 l3 → List.Forall₂ readMarkRaised l1 l3
  | _, _, _, List.Forall₂.nil, List.Forall₂.nil => List.Forall₂.nil
  | _, _, _, List.Forall₂.cons h1 t1, List.Forall₂.cons h2 t2 =>
    List.Forall₂.cons (readMarkRaised_trans h1 h2) (forall₂_readMarkRaised_trans t1 t2)

theorem Read_scan_raised (txn : Int) (chain : List Version) :
    ∀ (largest : Int) (result : Value) (valid : Bool),
      List.Forall₂ readMarkRaised chain (Read.scan txn chain largest result valid).1 := by
  induction chain with
  | nil => intro l r b; exact List.Forall₂.nil
  | cons v rest ih =>
    intro l r b
    by_cases hc : v.version_id_ ≤ txn ∧ v.version_id_ > l
    · simp only [Read.scan, hc, and_self, if_true]
      refine List.Forall₂.cons ?_ (ih _ _ _)
      by_cases hm : txn > v.max_read_id_
      · simp only [hm, if_true]
        exact ⟨rfl, rfl, le_of_lt hm⟩
      · simp only [hm, if_false]
        exact readMarkRaised_refl v
    · simp only [Read.scan, hc, if_false]
      exact List.Forall₂.cons (readMarkRaised_refl v) (ih _ _ _)

theorem Read_raised (s : MVCCStorage) (key : Key) (result : Value) (txn : Int) (k : Key) :
    List.Forall₂ readMarkRaised (chainOf s k) (chainOf (Read s key result txn).2.2 k) := by
  rw [chainOf_Read]
  by_cases hk : k = key
  · simp only [hk, if_true]
    exact Read_scan_raised txn _ _ _ _
  · simp only [hk, if_false]
    exact forall₂_readMarkRaised_refl _

/-- Claim C14. `Read(key, txn_id)` keeps, for every key, the length and order
of the chain and the `value_` and `version_id_` of every version, and leaves
every `max_read_id_` at least as large as it was; it creates and removes no
chain. The same relation holds between the states before and after any
sequence of `Read` calls. -/
theorem Read_monotone (s : MVCCStorage) (key : Key) (result : Value) (txn_unique_id : Int) :
    (∀ k, List.Forall₂ readMarkRaised (chainOf s k)
      (chainOf (Read s key result txn_unique_id).2.2 k)) ∧
    (∀ k, (tableGet k (Read s key result txn_unique_id).2.2.mvcc_data_).isSome =
      (tableGet k s.mvcc_data_).isSome) ∧
    (∀ (reads : List (Key × Int)) (s0 : MVCCStorage) (k : Key),
      List.Forall₂ readMarkRaised (chainOf s0 k) (chainOf (readAll reads s0) k)) := by
  refine ⟨fun k => Read_raised s key result txn_unique_id k, ?_, ?_⟩
  · intro k
    unfold Read
    cases hg : tableGet key s.mvcc_data_ with
    | none => rfl
    | some chain =>
      by_cases hk : k = key
      · subst hk
        simp [tableGet_tablePut_self, hg]
      · simp only
        rw [tableGet_tablePut_ne _ _ hk]
  · intro reads
    induction reads with
    | nil => intro s0 k; exact forall₂_readMarkRaised_refl _
    | cons rd reads ih =>
      intro s0 k
      simp only [readAll, List.foldl_cons]
      exact forall₂_readMarkRaised_trans (Read_raised s0 rd.1 0 rd.2 k)
        (ih (Read s0 rd.1 0 rd.2).2.2 k)

theorem Read_eq_scan (s : MVCCStorage) (key : Key) (result : Value) (txn : Int) :
    (Read s key result txn).1 = (Read.scan txn (chainOf s key) 0 result false).2.2 ∧
    (Read s key result txn).2.1 = (Read.scan txn (chainOf s key) 0 result false).2.1 := by
  unfold Read chainOf
  cases hg : tableGet key s.mvcc_data_ with
  | none => exact ⟨rfl, rfl⟩
  | some chain => exact ⟨rfl, rfl⟩

/-- Whatever the order of the chain, a scan that meets an acceptable version
ends with the value of one whose `version_id_` is the largest among those not
above the reader. -/
theorem Read_scan_selects (txn : Int) (chain : List Version) :
    ∀ (largest : Int) (result : Value) (valid : Bool),
      (∃ v ∈ chain, v.version_id_ ≤ txn ∧ v.version_id_ > largest) →
      (Read.scan txn chain largest result valid).2.2 = true ∧
      ∃ v ∈ chain, v.version_id_ ≤ txn ∧ largest < v.version_id_ ∧
        (∀ u ∈ chain, u.version_id_ ≤ txn → u.version_id_ ≤ v.version_id_) ∧
        (Read.scan txn chain largest result valid).2.1 = v.value_ := by
  induction chain with
  | nil => intro l r b h; obtain ⟨v, hv, _⟩ := h; simp at hv
  | cons x rest ih =>
    intro l r b h
    by_cases hc : x.version_id_ ≤ txn ∧ x.version_id_ > l
    · simp only [Read.scan, hc, and_self, if_true]
      by_cases hmore : ∃ v ∈ rest, v.version_id_ ≤ txn ∧ v.version_id_ > x.version_id_
      · obtain ⟨hval, v, hv, h1, h2, h3, h4⟩ := ih x.version_id_ x.value_ true hmore
        refine ⟨hval, v, List.mem_cons_of_mem _ hv, h1, lt_trans hc.2 h2, ?_, h4⟩
        intro u hu hle
        rcases List.mem_cons.mp hu with rfl | hu2
        · exact le_of_lt h2
        · exact h3 u hu2 hle
      · have hun := Read_scan_unchanged txn rest x.version_id_ x.value_ true
          (fun u hu hcu => hmore ⟨u, hu, hcu⟩)
        rw [hun]
        refine ⟨rfl, x, List.mem_cons_self _ _, hc.1, hc.2, ?_, rfl⟩
        intro u hu hle
        rcases List.mem_cons.mp hu with rfl | hu2
        · exact le_refl _
        · by_contra hlt
          exact hmore ⟨u, hu2, hle, not_le.mp hlt⟩
    · simp only [Read.scan, hc, if_false]
      obtain ⟨v, hv, hcv⟩ := h
      have hvrest : v ∈ rest := by
        rcases List.mem_cons.mp hv with rfl | hv2
        · exact absurd hcv hc
        · exact hv2
      obtain ⟨hval, w, hw, h1, h2, h3, h4⟩ := ih l r b ⟨v, hvrest, hcv⟩
      refine ⟨hval, w, List.mem_cons_of_mem _ hw, h1, h2, ?_, h4⟩
      intro u hu hle
      rcases List.mem_cons.mp hu with rfl | hu2
      · by_contra hlt
        have : u.version_id_ ≤ l := by
          by_contra hgt
          exact hc ⟨hle, not_le.mp hgt⟩
        exact hlt (le_trans this (le_of_lt h2))
      · exact h3 u hu2 hle

/-- The version that `Write(key, w.1, w.2)` creates. -/
theorem chainOf_writeAll (key : Key) (writes : List (Value × Int)) :
    ∀ s : MVCCStorage, chainOf (writeAll key writes s) key =
      (writes.reverse.map
        (fun w => ({ value_ := w.1, version_id_ := w.2, max_read_id_ := w.2 } : Version)))
        ++ chainOf s key := by
  induction writes with
  | nil => intro s; rfl
  | cons w writes ih =>
    intro s
    simp only [writeAll, List.foldl_cons]
    have := ih (Write s key w.1 w.2)
    simp only [writeAll] at this
    rw [this, chainOf_Write]
    simp

/-- Claim C12. A key without a chain is written by `Write` at pairwise distinct
positive timestamps, in any call order. Then `Read(key, r)` returns false,
with `*result` untouched, when `r` is smaller than every timestamp written;
it returns true as soon as some timestamp written is `≤ r`; and it then
returns the value written at the largest timestamp `≤ r`. -/
theorem Read_visibility (s0 : MVCCStorage) (key : Key) (writes : List (Value × Int))
    (hnone : tableGet key s0.mvcc_data_ = none)
    (hdist : (writes.map Prod.snd).Nodup)
    (hpos : ∀ w ∈ writes, 0 < w.2)
    (result : Value) (r : Int) :
    ((∀ w ∈ writes, r < w.2) →
      (Read (writeAll key writes s0) key result r).1 = false ∧
      (Read (writeAll key writes s0) key result r).2.1 = result) ∧
    ((∃ w ∈ writes, w.2 ≤ r) →
      (Read (writeAll key writes s0) key result r).1 = true) ∧
    (∀ w ∈ writes, w.2 ≤ r → (∀ u ∈ writes, u.2 ≤ r → u.2 ≤ w.2) →
      (Read (writeAll key writes s0) key result r).1 = true ∧
      (Read (writeAll key writes s0) key result r).2.1 = w.1) := by
  have hchain : chainOf (writeAll key writes s0) key =
      writes.reverse.map
        (fun w => ({ value_ := w.1, version_id_ := w.2, max_read_id_ := w.2 } : Version)) := by
    rw [chainOf_writeAll]
    simp [chainOf, hnone]
  have hmem : ∀ v, v ∈ chainOf (writeAll key writes s0) key ↔
      ∃ w ∈ writes, v = { value_ := w.1, version_id_ := w.2, max_read_id_ := w.2 } := by
    intro v
    rw [hchain]
    simp only [List.mem_map, List.mem_reverse]
    constructor
    · rintro ⟨w, hw, rfl⟩; exact ⟨w, hw, rfl⟩
    · rintro ⟨w, hw, rfl⟩; exact ⟨w, hw, rfl⟩
  obtain ⟨hfound, hvalue⟩ := Read_eq_scan (writeAll key writes s0) key result r
  rw [hfound, hvalue]
  have hsel : ∀ w ∈ writes, w.2 ≤ r →
      ∃ v ∈ chainOf (writeAll key writes s0) key, v.version_id_ ≤ r ∧ v.version_id_ > 0 :=
    fun w hw hle => ⟨_, (hmem _).mpr ⟨w, hw, rfl⟩, hle, hpos w hw⟩
  refine ⟨?_, ?_, ?_⟩
  · intro hall
    have hun := Read_scan_unchanged r (chainOf (writeAll key writes s0) key) 0 result false
      (by
        intro v hv hc
        obtain ⟨w, hw, rfl⟩ := (hmem v).mp hv
        exact absurd hc.1 (not_le.mpr (hall w hw)))
    rw [hun]
    exact ⟨rfl, rfl⟩
  · rintro ⟨w, hw, hle⟩
    exact (Read_scan_selects r _ 0 result false (hsel w hw hle)).1
  · intro w hw hle hmax
    obtain ⟨hval, v, hv, h1, _, h3, h4⟩ :=
      Read_scan_selects r _ 0 result false (hsel w hw hle)
    refine ⟨hval, ?_⟩
    rw [h4]
    obtain ⟨u, hu, rfl⟩ := (hmem v).mp hv
    have h5 : w.2 ≤ u.2 := h3 _ ((hmem _).mpr ⟨w, hw, rfl⟩) hle
    have h6 : u.2 ≤ w.2 := hmax u hu h1
    have heq : u.2 = w.2 := le_antisymm h6 h5
    have : u = w := List.inj_on_of_nodup_map hdist hu hw heq
    rw [this]

/-- Witness of claim C12: values 10, 20, 30 written at 2, 5, 9; the read at 6
gives 20, the read at 1 finds nothing, the read at 20 gives 30. -/
theorem Read_visibility_witness :
    (Read (writeAll 0 [(10, 2), (20, 5), (30, 9)] MVCCStorage.empty) 0 0 6).1 = true ∧
    (Read (writeAll 0 [(10, 2), (20, 5), (30, 9)] MVCCStorage.empty) 0 0 6).2.1 = 20 ∧
    (Read (writeAll 0 [(10, 2), (20, 5), (30, 9)] MVCCStorage.empty) 0 0 1).1 = false ∧
    (Read (writeAll 0 [(10, 2), (20, 5), (30, 9)] MVCCStorage.empty) 0 0 20).2.1 = 30 :=
  ⟨((Read_visibility MVCCStorage.empty 0 [(10, 2), (20, 5), (30, 9)] rfl (by decide)
      (by decide) 0 6).2.2 (20, 5) (by decide) (by decide) (by decide)).1,
    ((Read_visibility MVCCStorage.empty 0 [(10, 2), (20, 5), (30, 9)] rfl (by decide)
      (by decide) 0 6).2.2 (20, 5) (by decide) (by decide) (by decide)).2,
    ((Read_visibility MVCCStorage.empty 0 [(10, 2), (20, 5), (30, 9)] rfl (by decide)
      (by decide) 0 1).1 (by decide)).1,
    ((Read_visibility MVCCStorage.empty 0 [(10, 2), (20, 5), (30, 9)] rfl (by decide)
      (by decide) 0 20).2.2 (30, 9) (by decide) (by decide) (by decide)).2⟩

/-! ## States reached by validated writes -/

theorem CheckWrite_true_bounds (s : MVCCStorage) (key : Key) (txn : Int)
    (h : CheckWrite s key txn = true) :
    ∀ u ∈ chainOf s key, u.version_id_ ≤ txn ∧ u.max_read_id_ ≤ txn := by
  intro u hu
  by_contra hnot
  have hf : CheckWrite s key txn = false := by
    rw [CheckWrite_eq_scan, CheckWrite_scan_eq_false]
    refine ⟨u, hu, ?_⟩
    by_contra hboth
    push_neg at hboth
    exact hnot ⟨hboth.1, hboth.2⟩
  rw [h] at hf
  exact absurd hf (by decide)

theorem strictly_descending_guardedRun (ops : List Op) :
    ∀ (s0 s : MVCCStorage),
      (∀ key, ((chainOf s0 key).map Version.version_id_).Pairwise (fun a b => b < a)) →
      guardedRun s0 ops = some s → freshWrites s0 ops = true →
      ∀ key, ((chainOf s key).map Version.version_id_).Pairwise (fun a b => b < a) := by
  induction ops with
  | nil =>
    intro s0 s h0 hr _
    simp only [guardedRun, Option.some.injEq] at hr
    exact hr ▸ h0
  | cons op ops ih =>
    intro s0 s h0 hr hf
    cases op with
    | Read key txn =>
      simp only [guardedRun, guardedStep] at hr
      simp only [freshWrites, guardedStep, Bool.true_and] at hf
      refine ih _ s ?_ hr hf
      intro k
      rw [chainOf_Read]
      by_cases hk : k = key
      · simp only [hk, if_true, Read_scan_ids]; exact h0 key
      · simp only [hk, if_false]; exact h0 k
    | Write key value txn =>
      by_cases hcw : CheckWrite s0 key txn = true
      · simp only [guardedRun, guardedStep, hcw, if_true] at hr
        simp only [freshWrites, guardedStep, hcw, if_true, Bool.and_eq_true,
          decide_eq_true_eq] at hf
        refine ih _ s ?_ hr hf.2
        intro k
        rw [chainOf_Write]
        by_cases hk : k = key
        · simp only [hk, if_true, List.map_cons, List.pairwise_cons]
          refine ⟨?_, h0 key⟩
          intro a ha
          obtain ⟨u, hu, rfl⟩ := List.mem_map.mp ha
          have hle := (CheckWrite_true_bounds s0 key txn hcw u hu).1
          have hne : u.version_id_ ≠ txn := fun heq => hf.1 (heq ▸ ha)
          exact lt_of_le_of_ne hle hne
        · simp only [hk, if_false]; exact h0 k
      · simp [guardedRun, guardedStep, hcw] at hr

/-- Claim C15, amended. In every state reached from the empty storage by `Read`
calls and by `Write(key, v, t)` calls, each made when `CheckWrite(key, t)`
returns true just before it and no version of `key`'s chain has
`version_id_ = t` yet, no chain holds two versions with the same
`version_id_`: the `version_id_`s of a chain strictly decrease from front to
back. -/
theorem version_ids_unique (ops : List Op) (s : MVCCStorage)
    (hrun : guardedRun MVCCStorage.empty ops = some s)
    (hfresh : freshWrites MVCCStorage.empty ops = true) (key : Key) :
    ((chainOf s key).map Version.version_id_).Nodup ∧
    ((chainOf s key).map Version.version_id_).Pairwise (fun a b => b < a) := by
  have hstrict := strictly_descending_guardedRun ops MVCCStorage.empty s
    (by intro k; simp [chainOf, MVCCStorage.empty, tableGet]) hrun hfresh key
  exact ⟨hstrict.imp (fun h => ne_of_gt h), hstrict⟩

/-- Witness of claim C15: key 0 written at 5, read at 7 and written at 7. -/
theorem version_ids_unique_witness :
    guardedRun MVCCStorage.empty [Op.Write 0 1 5, Op.Read 0 7, Op.Write 0 2 7] =
      some (Write (Read (Write MVCCStorage.empty 0 1 5) 0 0 7).2.2 0 2 7) ∧
    freshWrites MVCCStorage.empty [Op.Write 0 1 5, Op.Read 0 7, Op.Write 0 2 7] = true ∧
    ((chainOf (Write (Read (Write MVCCStorage.empty 0 1 5) 0 0 7).2.2 0 2 7) 0).map
      Version.version_id_).Nodup :=
  ⟨by decide, by decide,
    (version_ids_unique [Op.Write 0 1 5, Op.Read 0 7, Op.Write 0 2 7]
      (Write (Read (Write MVCCStorage.empty 0 1 5) 0 0 7).2.2 0 2 7) (by decide) (by decide)
      0).1⟩

/-- Claim C15 as stated fails: after `Write(0, 1, 5)` the call
`CheckWrite(0, 5)` returns true, because both comparisons of `CheckWrite` are
strict, so a second validated `Write(0, 2, 5)` leaves two versions with
`version_id_` 5 in the chain. -/
theorem same_timestamp_written_twice :
    guardedRun MVCCStorage.empty [Op.Write 0 1 5, Op.Write 0 2 5] =
      some (Write (Write MVCCStorage.empty 0 1 5) 0 2 5) ∧
    (chainOf (Write (Write MVCCStorage.empty 0 1 5) 0 2 5) 0).map Version.version_id_ =
      [5, 5] := by
  decide

theorem read_marks_Read (s : MVCCStorage) (key : Key) (result : Value) (txn : Int)
    (hdesc : ChainsDescending s)
    (h : ∀ k, (chainOf s k).Pairwise (fun w u => u.max_read_id_ ≤ w.version_id_)) :
    ∀ k, (chainOf (Read s key result txn).2.2 k).Pairwise
      (fun w u => u.max_read_id_ ≤ w.version_id_) := by
  intro k
  rw [chainOf_Read]
  by_cases hk : k = key
  · simp only [hk, if_true]
    rcases Read_scan_descending txn (chainOf s key) 0 result false (hdesc key) with
      ⟨_, heq⟩ | ⟨pre, ver, post, hch, hpre, h1, h2, heq⟩
    · rw [heq]; exact h key
    · rw [heq]
      have hold := h key
      have hd := hdesc key
      rw [hch] at hold hd
      simp only [List.map_append, List.map_cons, List.pairwise_append, List.pairwise_cons,
        List.mem_map, forall_exists_index, and_imp, forall_apply_eq_imp_iff₂, List.mem_cons,
        forall_eq_or_imp] at hd
      rw [List.pairwise_append] at hold ⊢
      obtain ⟨hp1, hp2, hp3⟩ := hold
      rw [List.pairwise_cons] at hp2 ⊢
      refine ⟨hp1, ⟨?_, hp2.2⟩, ?_⟩
      · intro u hu
        exact hp2.1 u hu
      · intro a ha b hb
        rcases List.mem_cons.mp hb with rfl | hb2
        · have hge : ver.version_id_ ≤ a.version_id_ := (hd.2.2 a ha).1
          have hlt : txn < a.version_id_ := by
            by_contra hnot
            exact hpre a ha ⟨not_lt.mp hnot, lt_of_lt_of_le h2 hge⟩
          have hold2 : ver.max_read_id_ ≤ a.version_id_ := hp3 a ha ver (List.mem_cons_self _ _)
          simp only [markRead]
          exact max_le hold2 (le_of_lt hlt)
        · exact hp3 a ha b (List.mem_cons_of_mem _ hb2)
  · simp only [hk, if_false]; exact h k

theorem read_marks_Write (s : MVCCStorage) (key : Key) (value : Value) (txn : Int)
    (hcw : CheckWrite s key txn = true)
    (h : ∀ k, (chainOf s k).Pairwise (fun w u => u.max_read_id_ ≤ w.version_id_)) :
    ∀ k, (chainOf (Write s key value txn) k).Pairwise
      (fun w u => u.max_read_id_ ≤ w.version_id_) := by
  intro k
  rw [chainOf_Write]
  by_cases hk : k = key
  · simp only [hk, if_true, List.pairwise_cons]
    exact ⟨fun u hu => (CheckWrite_true_bounds s key txn hcw u hu).2, h key⟩
  · simp only [hk, if_false]; exact h k

theorem read_marks_guardedRun (ops : List Op) :
    ∀ (s0 s : MVCCStorage), ChainsDescending s0 →
      (∀ k, (chainOf s0 k).Pairwise (fun w u => u.max_read_id_ ≤ w.version_id_)) →
      guardedRun s0 ops = some s →
      ∀ k, (chainOf s k).Pairwise (fun w u => u.max_read_id_ ≤ w.version_id_) := by
  induction ops with
  | nil =>
    intro s0 s _ h0 hr
    simp only [guardedRun, Option.some.injEq] at hr
    exact hr ▸ h0
  | cons op ops ih =>
    intro s0 s hd h0 hr
    cases op with
    | Read key txn =>
      simp only [guardedRun, guardedStep] at hr
      exact ih _ s (ChainsDescending_Read s0 key 0 txn hd)
        (read_marks_Read s0 key 0 txn hd h0) hr
    | Write key value txn =>
      by_cases hcw : CheckWrite s0 key txn = true
      · simp only [guardedRun, guardedStep, hcw, if_true] at hr
        exact ih _ s (ChainsDescending_Write s0 key value txn hd hcw)
          (read_marks_Write s0 key value txn hcw h0) hr
      · simp [guardedRun, guardedStep, hcw] at hr

/-- Claim C20. In every state reached from the empty storage by `Read` calls
and by `Write(key, v, t)` calls each made when `CheckWrite(key, t)` returns
true just before it, every chain has `version_id_` non-increasing from front
to back, every non-front version has `max_read_id_` at most the `version_id_`
of the version just in front of it, and the whole-chain `CheckWrite` returns
the same result as the check of the front version alone. -/
theorem CheckWrite_front_only (ops : List Op) (s : MVCCStorage)
    (hrun : guardedRun MVCCStorage.empty ops = some s) :
    ChainsDescending s ∧ ReadMarksBelow s ∧
    ∀ key txn_unique_id,
      CheckWrite s key txn_unique_id = CheckWriteFront s key txn_unique_id := by
  have hdesc : ChainsDescending s :=
    ChainsDescending_guardedRun ops _ s ChainsDescending_empty hrun
  have hmarks := read_marks_guardedRun ops MVCCStorage.empty s ChainsDescending_empty
    (by intro k; simp [chainOf, MVCCStorage.empty, tableGet]) hrun
  refine ⟨hdesc, fun key => (hmarks key).chain', ?_⟩
  intro key txn
  rw [CheckWrite_eq_scan]
  unfold CheckWriteFront
  have hd := hdesc key
  have hm := hmarks key
  cases hch : chainOf s key with
  | nil => rfl
  | cons front rest =>
    rw [hch] at hd hm
    simp only [List.map_cons, List.pairwise_cons, List.mem_map, forall_exists_index, and_imp,
      forall_apply_eq_imp_iff₂] at hd
    rw [List.pairwise_cons] at hm
    by_cases hfront : front.version_id_ ≤ txn ∧ front.max_read_id_ ≤ txn
    · have hrest : CheckWrite.scan txn rest = true := by
        by_contra hne
        have hfalse : CheckWrite.scan txn rest = false := by simpa using hne
        obtain ⟨u, hu, hbad⟩ := (CheckWrite_scan_eq_false txn rest).mp hfalse
        have h1 := hd.1 u hu
        have h2 := hm.1 u hu
        rcases hbad with hb | hb
        · exact absurd (le_trans h1 hfront.1) (not_le.mpr hb)
        · exact absurd (le_trans h2 hfront.1) (not_le.mpr hb)
      have hnot : ¬ (front.version_id_ > txn ∨ front.max_read_id_ > txn) := by
        rintro (hb | hb)
        · exact absurd hfront.1 (not_le.mpr hb)
        · exact absurd hfront.2 (not_le.mpr hb)
      simp only [CheckWrite.scan, hnot, if_false, hrest, hfront.1, hfront.2, decide_True,
        Bool.and_self]
    · have hbad : front.version_id_ > txn ∨ front.max_read_id_ > txn := by
        by_contra hnone
        push_neg at hnone
        exact hfront ⟨hnone.1, hnone.2⟩
      simp only [CheckWrite.scan, hbad, if_true]
      rcases hbad with hb | hb
      · simp [not_le.mpr hb]
      · simp [not_le.mpr hb]

/-- Witness of claim C20: key 0 written at 5, read at 7 and written at 7; a
write at 6 is rejected by both checks. -/
theorem CheckWrite_front_only_witness :
    guardedRun MVCCStorage.empty [Op.Write 0 1 5, Op.Read 0 7, Op.Write 0 2 7] =
      some (Write (Read (Write MVCCStorage.empty 0 1 5) 0 0 7).2.2 0 2 7) ∧
    CheckWrite (Write (Read (Write MVCCStorage.empty 0 1 5) 0 0 7).2.2 0 2 7) 0 6 =
      CheckWriteFront (Write (Read (Write MVCCStorage.empty 0 1 5) 0 0 7).2.2 0 2 7) 0 6 :=
  ⟨by decide,
    (CheckWrite_front_only [Op.Write 0 1 5, Op.Read 0 7, Op.Write 0 2 7]
      (Write (Read (Write MVCCStorage.empty 0 1 5) 0 0 7).2.2 0 2 7) (by decide)).2.2 0 6⟩

end MVCCStorage

end DbConcurrency
